import Mathlib

/-!
  # Verification of the open-addressing hash table in `ht.h` / the unnamed header

Shallow embedding of the repository's hash-table engine:

* `CAPACITIES` — the prime capacity ladder (static array in `ht.h`).
* `DOUBLE_HASH_MOD_VALUES` — the secondary-hash modulus table of
  `DoubleHashProber` in `ht.h`.
* `ProberState`, `Prober.next`, `LinearProber.next`, `DoubleHashProber.*` —
  the probing strategies.
* `HashTable` — the table state (`table_`, `mIndex_`, `count_`, `used_`).
  The diagnostic probe counter `totalProbes_` (observable but non-semantic
  per the design document) is not modelled; no claim mentions it.
* `HashTable.probe`, `insert`, `remove`, `find`, `atVal`, `reportAll`, … —
  the public operations of `ht.h`, instantiated (as the source's template
  default does) with the linear prober, whose `next` is inlined in the
  probe loop: the `i`-th call returns `(start + i) % m` while `i < m`, and
  the sentinel `npos` (modelled `none`) afterwards.
* `HashTable.insertB`, `removeB`, `findB`, `reportAllB`, … — the variants of
  the second, unnamed header (`src/unnamed/part_000`), where they differ.

C++ exceptions are modelled with `Except`; an error carries the table state
as it is when the exception propagates (the C++ object outlives the throw).
`size_t` is modelled by `Nat` (hash values are parameters `hf : K → Nat`,
as the hash functor is a template parameter), `double resizeAlpha_` by an
exact rational `α : ℚ`; for the default `α = 0.4` and the prime ladder the
comparison `double(used_+1)/table_.size() >= resizeAlpha_` never sits on a
representability boundary.
-/

/-- The static prime capacity ladder `HashTable::CAPACITIES` of `ht.h`. -/
def CAPACITIES : List Nat :=
  [11, 23, 47, 97, 197, 397, 797, 1597,
   3203, 6421, 12853, 25717, 51437, 102877,
   205759, 411527, 823117, 1646237, 3292489,
   6584983, 13169977, 26339969, 52679969,
   105359969, 210719881, 421439783,
   842879579, 1685759167]

/-- `sizeof(CAPACITIES)/sizeof(HASH_INDEX_T)` — the ladder length (28). -/
def capCount : Nat := CAPACITIES.length

/-- `CAPACITIES[i]` (reads past the end never occur: `mIndex_ < capCount`). -/
def capAt (i : Nat) : Nat := CAPACITIES.getD i 0

/-- `DoubleHashProber::DOUBLE_HASH_MOD_VALUES` of `ht.h`. -/
def DOUBLE_HASH_MOD_VALUES : List Nat :=
  [7, 19, 43, 89, 193, 389, 787, 1583, 3191, 6397,
   12841, 25703, 51431, 102871, 205721, 411503,
   823051, 1646221, 3292463, 6584957, 13169963,
   26339921, 52679927, 105359939, 210719881,
   421439749, 842879563, 1685759113]

/-- State common to the probers: `start_`, `m_`, `numProbes_`
(`Prober<KeyType>` in `ht.h`).  `npos` is modelled by `Option.none`. -/
structure ProberState where
  start : Nat
  m : Nat
  numProbes : Nat
deriving DecidableEq, Repr

/-- `ProberMisuse`: the base `Prober::next()` throws `std::logic_error`. -/
inductive ProberMisuse where
  | misuse
deriving DecidableEq, Repr

/-- `Prober<KeyType>::init` of `ht.h` (the key is unused by the base). -/
def ProberState.init (start m : Nat) : ProberState :=
  { start := start, m := m, numProbes := 0 }

/-- The base (unspecialized) `Prober::next()` of `ht.h`: always throws. -/
def Prober.next (_ : ProberState) : Except ProberMisuse (Nat × ProberState) :=
  .error .misuse

/-- `LinearProber::next()` of `ht.h`: `npos` (`none`) once `numProbes_ ≥ m_`,
otherwise `(start_ + numProbes_) % m_`, incrementing `numProbes_`. -/
def LinearProber.next (p : ProberState) : Option Nat × ProberState :=
  if p.m ≤ p.numProbes then (none, p)
  else ((p.start + p.numProbes) % p.m, { p with numProbes := p.numProbes + 1 })

/-- The modulus selection of `DoubleHashProber::init` in `ht.h`:
`mod = DOUBLE_HASH_MOD_VALUES[0]`, then
`for (i = 0; i < SIZE && V[i] < m; ++i) mod = V[i]`. -/
def dhModGo : List Nat → Nat → Nat → Nat
  | [], mod, _ => mod
  | v :: rest, mod, m => if v < m then dhModGo rest v m else mod

/-- The modulus chosen by `DoubleHashProber::init` for table size `m`. -/
def dhMod (m : Nat) : Nat :=
  dhModGo DOUBLE_HASH_MOD_VALUES (DOUBLE_HASH_MOD_VALUES.headD 0) m

/-- `DoubleHashProber` state: the base prober state plus `dhstep_`. -/
structure DHProberState where
  base : ProberState
  dhstep : Nat
deriving DecidableEq, Repr

/-- `DoubleHashProber::init` of `ht.h`:
`dhstep_ = mod - (h2_(key) % mod)` after selecting the modulus. -/
def DoubleHashProber.init {K : Type} (h2 : K → Nat) (start m : Nat) (key : K) :
    DHProberState :=
  { base := ProberState.init start m,
    dhstep := dhMod m - (h2 key % dhMod m) }

/-- `DoubleHashProber::next()` of `ht.h`:
`npos` once exhausted, else `(start_ + numProbes_ * dhstep_) % m_`. -/
def DoubleHashProber.next (p : DHProberState) : Option Nat × DHProberState :=
  if p.base.m ≤ p.base.numProbes then (none, p)
  else ((p.base.start + p.base.numProbes * p.dhstep) % p.base.m,
        { p with base := { p.base with numProbes := p.base.numProbes + 1 } })

/-- `HashTable::HashItem` of `ht.h`: the stored pair plus the tombstone
flag (`item.first` = `key`, `item.second` = `val`). -/
structure HashItem (K V : Type) where
  key : K
  val : V
  deleted : Bool
deriving DecidableEq, Repr

/-- A slot of the table: `HashItem*`, where `nullptr` is `none`. -/
abbrev Slot (K V : Type) := Option (HashItem K V)

/-- The `HashTable` state of `ht.h`: `table_`, `mIndex_`, `count_` (active,
non-deleted items), `used_` (total non-null slots, deleted included). -/
structure HashTable (K V : Type) where
  table : List (Slot K V)
  mIndex : Nat
  count : Nat
  used : Nat
deriving DecidableEq, Repr

/-- Errors thrown by `HashTable` operations in `ht.h`:
`full` = `"HashTable full, cannot insert"`,
`noMoreCaps` = `"No more prime capacities"` (CapacityExhausted). -/
inductive HTErr where
  | full
  | noMoreCaps
deriving DecidableEq, Repr

variable {K V : Type} [DecidableEq K]

/-- The fresh table built by the constructor
(`table_.assign(CAPACITIES[0], nullptr)`, all counters zero). -/
def HashTable.init (K V : Type) : HashTable K V :=
  { table := List.replicate (capAt 0) none, mIndex := 0, count := 0, used := 0 }

/-- The condition on which the probe loop of `HashTable::probe` stops at
slot `loc`: an empty slot, or a non-deleted slot whose key equals `key`. -/
def isStop (t : List (Slot K V)) (k : K) (loc : Nat) : Bool :=
  match t.getD loc none with
  | none => true
  | some it => !it.deleted && decide (it.key = k)

/-- The probe loop of `HashTable::probe` in `ht.h`, with the default
`LinearProber`'s `next` inlined (`i` is the prober's `numProbes_`; the
prober returns `npos` when `m ≤ i`).  `fuel` is the loop's remaining step
budget; `probe` supplies `fuel = m`, exactly the number of indices the
linear prober yields before `npos`. -/
def probeGo (t : List (Slot K V)) (k : K) (start m : Nat) : Nat → Nat → Option Nat
  | _, 0 => none
  | i, fuel + 1 =>
    if m ≤ i then none
    else
      let loc := (start + i) % m
      if isStop t k loc then some loc
      else probeGo t k start m (i + 1) fuel

/-- `HashTable::probe` of `ht.h`:
`h0 = hash_(key) % CAPACITIES[mIndex_]`, then the prober-driven loop. -/
def HashTable.probe (hf : K → Nat) (s : HashTable K V) (k : K) : Option Nat :=
  let m := capAt s.mIndex
  probeGo s.table k (hf k % m) m 0 m

/-- The placement part of `HashTable::insert` in `ht.h` (after the resize
check): probe, throw `"HashTable full"` on `npos`, then either fill a
brand-new slot (`++count_; ++used_`) or overwrite the existing value. -/
def HashTable.place (hf : K → Nat) (s : HashTable K V) (p : K × V) :
    Except (HTErr × HashTable K V) (HashTable K V) :=
  match s.probe hf p.1 with
  | none => .error (.full, s)
  | some loc =>
    match s.table.getD loc none with
    | none =>
      .ok { s with table := s.table.set loc (some ⟨p.1, p.2, false⟩),
                   count := s.count + 1, used := s.used + 1 }
    | some it =>
      .ok { s with table := s.table.set loc (some ⟨it.key, p.2, it.deleted⟩) }

/-- The resize trigger of `ht.h`'s `insert`:
`double(used_ + 1) / table_.size() >= resizeAlpha_`.  The exact rational
value of the quotient is written `mkRat (used_ + 1) table_.size()` so that
the comparison evaluates by kernel reduction; `needResize_eq_div` below
restates it with `/` on `ℚ`. -/
def HashTable.needResize (α : ℚ) (s : HashTable K V) : Bool :=
  decide (α ≤ mkRat (s.used + 1) s.table.length)

/-- The rehash loop of `HashTable::resize` in `ht.h`: for every slot of the
old table in order, re-`insert` the item if it is occupied and not
deleted.  `ins` is the (fuel-instantiated) insert used for the re-inserts. -/
def refill (ins : HashTable K V → K × V → Except (HTErr × HashTable K V) (HashTable K V)) :
    HashTable K V → List (Slot K V) → Except (HTErr × HashTable K V) (HashTable K V)
  | s, [] => .ok s
  | s, none :: rest => refill ins s rest
  | s, some it :: rest =>
    if it.deleted then refill ins s rest
    else
      match ins s (it.key, it.val) with
      | .ok s' => refill ins s' rest
      | .error e => .error e

/-- `HashTable::resize` of `ht.h`: fail with `"No more prime capacities"`
if the ladder has no further rung (checked before any mutation), else bump
`mIndex_`, allocate the fresh table, reset the counters and rehash the
non-deleted items of the old table. -/
def resizeWith
    (ins : HashTable K V → K × V → Except (HTErr × HashTable K V) (HashTable K V))
    (s : HashTable K V) : Except (HTErr × HashTable K V) (HashTable K V) :=
  if capCount ≤ s.mIndex + 1 then .error (.noMoreCaps, s)
  else
    refill ins
      { table := List.replicate (capAt (s.mIndex + 1)) none,
        mIndex := s.mIndex + 1, count := 0, used := 0 }
      s.table

/-- `HashTable::insert` of `ht.h`, with an explicit fuel bounding the depth
of nested resizes (each resize strictly increases `mIndex_`, so
`capCount - mIndex_` fuel always suffices; the fuel-exhausted branch
coincides with the ladder-exhausted throw of `resize`). -/
def insertFuel (hf : K → Nat) (α : ℚ) :
    Nat → HashTable K V → K × V → Except (HTErr × HashTable K V) (HashTable K V)
  | 0, s, p =>
    if s.needResize α then .error (.noMoreCaps, s) else s.place hf p
  | fuel + 1, s, p =>
    if s.needResize α then
      match resizeWith (insertFuel hf α fuel) s with
      | .ok s' => s'.place hf p
      | .error e => .error e
    else s.place hf p

/-- `HashTable::insert` of `ht.h`. -/
def HashTable.insert (hf : K → Nat) (α : ℚ) (s : HashTable K V) (p : K × V) :
    Except (HTErr × HashTable K V) (HashTable K V) :=
  insertFuel hf α (capCount - s.mIndex) s p

/-- `HashTable::internalFind` of `ht.h`: the probed slot if it is occupied
(paired with its index, standing for the returned `HashItem*`). -/
def HashTable.internalFind (hf : K → Nat) (s : HashTable K V) (k : K) :
    Option (Nat × HashItem K V) :=
  match s.probe hf k with
  | none => none
  | some loc =>
    match s.table.getD loc none with
    | none => none
    | some it => some (loc, it)

/-- `HashTable::remove` of `ht.h`: tombstone the found item and decrement
`count_` (`used_` stays, so deleted slots keep counting toward α). -/
def HashTable.remove (hf : K → Nat) (s : HashTable K V) (k : K) : HashTable K V :=
  match s.internalFind hf k with
  | none => s
  | some (loc, it) =>
    { s with table := s.table.set loc (some { it with deleted := true }),
             count := s.count - 1 }

/-- `HashTable::find` of `ht.h`: the stored pair behind the probed slot, or
null.  (`find` probes directly; it returns the item of any occupied probed
slot.) -/
def HashTable.find (hf : K → Nat) (s : HashTable K V) (k : K) : Option (K × V) :=
  match s.probe hf k with
  | none => none
  | some loc =>
    match s.table.getD loc none with
    | none => none
    | some it => some (it.key, it.val)

/-- The value component of `find`'s result. -/
def HashTable.findVal (hf : K → Nat) (s : HashTable K V) (k : K) : Option V :=
  (s.find hf k).map Prod.snd

/-- `HashTable::at` of `ht.h` (the name `at` is reserved in Lean):
`internalFind`, throwing `std::out_of_range` (`none`) when absent. -/
def HashTable.atVal (hf : K → Nat) (s : HashTable K V) (k : K) : Option V :=
  match s.internalFind hf k with
  | none => none
  | some (_, it) => some it.val

/-- `HashTable::size` of `ht.h`. -/
def HashTable.size (s : HashTable K V) : Nat := s.count

/-- `HashTable::empty` of `ht.h`. -/
def HashTable.isEmpty (s : HashTable K V) : Bool := s.count == 0

/-- `HashTable::reportAll` of `ht.h`: one `(bucket, key, value)` line for
every slot `i` with `table_[i]` non-null — the tombstone flag is *not*
consulted. -/
def HashTable.reportAll (s : HashTable K V) : List (Nat × K × V) :=
  (List.range s.table.length).filterMap fun i =>
    match s.table.getD i none with
    | none => none
    | some it => some (i, it.key, it.val)

/-!
  ## The second header (`src/unnamed/part_000`)

The unnamed header is a near-duplicate of `ht.h`.  Its probers are
identical state machines (only `modVals[25]` of its double-hash table
differs: `421439783` instead of `421439749`); its `HashTable` differs in:

* the resize trigger of `insert`: `double(used_) / table_.size() >= alpha_`
  (the count *before* the prospective insert);
* `insert` textually contains a stray duplicated `else` branch after the
  function's closing brace (lines 134–137) — syntactically dead text, not
  modelled;
* `remove` re-checks `!p->deleted`, `internalFind` returns null for a
  deleted slot, and `find` goes through `internalFind`;
* `reportAll` skips deleted slots;
* `probe` is a `for` loop bounded by `sizes[index_]` with an `npos` check
  inside — extensionally the same loop as `ht.h`'s (the linear prober
  first returns `npos` at call `m + 1`, which the bound never reaches), so
  it is modelled by the same `HashTable.probe`.
-/

/-- The resize trigger of the unnamed header's `insert`:
`double(used_) / table_.size() >= alpha_` — the count *before* the
prospective insert, unlike `ht.h`'s `used_ + 1`. -/
def HashTable.needResizeB (α : ℚ) (s : HashTable K V) : Bool :=
  decide (α ≤ mkRat s.used s.table.length)

/-- The unnamed header's `insert`, fuelled like `insertFuel`. -/
def insertFuelB (hf : K → Nat) (α : ℚ) :
    Nat → HashTable K V → K × V → Except (HTErr × HashTable K V) (HashTable K V)
  | 0, s, p =>
    if s.needResizeB α then .error (.noMoreCaps, s) else s.place hf p
  | fuel + 1, s, p =>
    if s.needResizeB α then
      match resizeWith (insertFuelB hf α fuel) s with
      | .ok s' => s'.place hf p
      | .error e => .error e
    else s.place hf p

/-- The unnamed header's `insert`. -/
def HashTable.insertB (hf : K → Nat) (α : ℚ) (s : HashTable K V) (p : K × V) :
    Except (HTErr × HashTable K V) (HashTable K V) :=
  insertFuelB hf α (capCount - s.mIndex) s p

/-- The unnamed header's `internalFind`:
`return (p && !p->deleted) ? p : nullptr`. -/
def HashTable.internalFindB (hf : K → Nat) (s : HashTable K V) (k : K) :
    Option (Nat × HashItem K V) :=
  match s.probe hf k with
  | none => none
  | some loc =>
    match s.table.getD loc none with
    | none => none
    | some it => if it.deleted then none else some (loc, it)

/-- The unnamed header's `remove`: `if (p && !p->deleted) { … }`. -/
def HashTable.removeB (hf : K → Nat) (s : HashTable K V) (k : K) : HashTable K V :=
  match s.internalFindB hf k with
  | none => s
  | some (loc, it) =>
    if it.deleted then s
    else
      { s with table := s.table.set loc (some { it with deleted := true }),
               count := s.count - 1 }

/-- The unnamed header's `find`, via `internalFindB`. -/
def HashTable.findB (hf : K → Nat) (s : HashTable K V) (k : K) : Option (K × V) :=
  match s.internalFindB hf k with
  | none => none
  | some (_, it) => some (it.key, it.val)

/-- The unnamed header's `at`, via `internalFindB`. -/
def HashTable.atValB (hf : K → Nat) (s : HashTable K V) (k : K) : Option V :=
  match s.internalFindB hf k with
  | none => none
  | some (_, it) => some it.val

/-- The unnamed header's `reportAll`: only slots that are occupied *and*
not deleted are printed. -/
def HashTable.reportAllB (s : HashTable K V) : List (Nat × K × V) :=
  (List.range s.table.length).filterMap fun i =>
    match s.table.getD i none with
    | none => none
    | some it => if it.deleted then none else some (i, it.key, it.val)

/-!
  ## Operation sequences

Reachable states are those produced from the freshly constructed table by
the public mutating operations (`insert`, `remove`); `find`/`at`/`size`/
`empty`/`reportAll` do not change the modelled state.
-/

/-- A public mutating operation. -/
inductive Op (K V : Type) where
  | ins : K → V → Op K V
  | rem : K → Op K V
deriving DecidableEq, Repr

/-- The key an operation refers to. -/
def Op.key : Op K V → K
  | .ins k _ => k
  | .rem k => k

/-- Run a list of operations with `ht.h`'s semantics, propagating the
first exception. -/
def runOps (hf : K → Nat) (α : ℚ) :
    HashTable K V → List (Op K V) → Except (HTErr × HashTable K V) (HashTable K V)
  | s, [] => .ok s
  | s, .ins k v :: rest =>
    match s.insert hf α (k, v) with
    | .ok s' => runOps hf α s' rest
    | .error e => .error e
  | s, .rem k :: rest => runOps hf α (s.remove hf k) rest

/-- Run a list of operations with the unnamed header's semantics. -/
def runOpsB (hf : K → Nat) (α : ℚ) :
    HashTable K V → List (Op K V) → Except (HTErr × HashTable K V) (HashTable K V)
  | s, [] => .ok s
  | s, .ins k v :: rest =>
    match s.insertB hf α (k, v) with
    | .ok s' => runOpsB hf α s' rest
    | .error e => .error e
  | s, .rem k :: rest => runOpsB hf α (s.removeB hf k) rest

/-- States reachable from the constructor through the public operations of
`ht.h` (with hash `hf` and load threshold `α`). -/
inductive Reachable (hf : K → Nat) (α : ℚ) : HashTable K V → Prop where
  | init : Reachable hf α (HashTable.init K V)
  | step_ins {s s' : HashTable K V} {p : K × V} :
      Reachable hf α s → s.insert hf α p = .ok s' → Reachable hf α s'
  | step_rem {s : HashTable K V} {k : K} :
      Reachable hf α s → Reachable hf α (s.remove hf k)

/-!
  ## The logical contents of a table

`liveEntries` lists the live (non-tombstoned) `(key, value)` pairs in slot
order, `occupiedCount` counts the non-null slots; `liveVal` is the
association-list view of the table that the operations refine.
-/

/-- Number of non-null slots (what `used_` tracks). -/
def occupiedCount : List (Slot K V) → Nat
  | [] => 0
  | none :: rest => occupiedCount rest
  | some _ :: rest => occupiedCount rest + 1

/-- The live `(key, value)` pairs, in slot order (what `count_` counts and
`resize` re-inserts). -/
def liveEntries : List (Slot K V) → List (K × V)
  | [] => []
  | none :: rest => liveEntries rest
  | some it :: rest =>
    if it.deleted then liveEntries rest else (it.key, it.val) :: liveEntries rest

/-- First-match association lookup. -/
def lookupKV : List (K × V) → K → Option V
  | [], _ => none
  | (k', v) :: rest, k => if k = k' then some v else lookupKV rest k

/-- The logical map stored in the table: the value of the first live slot
holding `k`. -/
def HashTable.liveVal (s : HashTable K V) (k : K) : Option V :=
  lookupKV (liveEntries s.table) k

/-- Slot `i` holds the live entry `(k, v)`. -/
def liveAt (t : List (Slot K V)) (i : Nat) (k : K) (v : V) : Prop :=
  t.getD i none = some ⟨k, v, false⟩

/-- No slot is tombstoned (true of every freshly rehashed table). -/
def noDeleted (t : List (Slot K V)) : Prop :=
  ∀ i it, t.getD i none = some it → it.deleted = false

/-- The chain position of slot `i` when probing linearly from `h0` modulo
`m`: the unique `j < m` with `(h0 + j) % m = i` (for `i < m`, `h0 ≤ m`). -/
def chainIdx (h0 m i : Nat) : Nat := (i + (m - h0)) % m

/-- The reachability invariant of the probe chains: every live slot is
preceded, along its own key's probe chain, only by occupied slots — hence
re-probing from the key's starting index reaches it. -/
def reachOk (hf : K → Nat) (t : List (Slot K V)) (m : Nat) : Bool :=
  (List.range t.length).all fun i =>
    match t.getD i none with
    | none => true
    | some it =>
      if it.deleted then true
      else
        let h0 := hf it.key % m
        (List.range (chainIdx h0 m i)).all fun j =>
          (t.getD ((h0 + j) % m) none).isSome

/-- The structural well-formedness invariant of a table state. -/
structure WF (hf : K → Nat) (s : HashTable K V) : Prop where
  mIndex_lt : s.mIndex < capCount
  len_eq : s.table.length = capAt s.mIndex
  count_eq : s.count = (liveEntries s.table).length
  used_eq : s.used = occupiedCount s.table
  nodup : ((liveEntries s.table).map Prod.fst).Nodup
  reach : reachOk hf s.table (capAt s.mIndex) = true

/-- The contract an insert routine must satisfy for the rehash loop:
this is exactly what `insertFuel_spec` establishes at every fuel. -/
def InsContract (hf : K → Nat)
    (ins : HashTable K V → K × V → Except (HTErr × HashTable K V) (HashTable K V)) :
    Prop :=
  ∀ (a a' : HashTable K V) (k : K) (v : V), WF hf a → ins a (k, v) = .ok a' →
    WF hf a' ∧
    (∀ k₂, a'.liveVal k₂ = if k₂ = k then some v else a.liveVal k₂) ∧
    a'.count = a.count + (if (a.liveVal k).isNone then 1 else 0) ∧
    (noDeleted a.table → noDeleted a'.table) ∧ a.mIndex ≤ a'.mIndex

/-- Extract the table state from a (possibly failed) run; on error this is
the state carried by the exception. -/
def getOk : Except (HTErr × HashTable K V) (HashTable K V) → HashTable K V
  | .ok s => s
  | .error (_, s) => s

instance exceptDecEq {ε σ : Type} [DecidableEq ε] [DecidableEq σ] :
    DecidableEq (Except ε σ) := fun a b =>
  match a, b with
  | .ok x, .ok y =>
    if h : x = y then .isTrue (by rw [h])
    else .isFalse (by intro he; cases he; exact h rfl)
  | .error x, .error y =>
    if h : x = y then .isTrue (by rw [h])
    else .isFalse (by intro he; cases he; exact h rfl)
  | .ok _, .error _ => .isFalse (by intro he; cases he)
  | .error _, .ok _ => .isFalse (by intro he; cases he)

/-- Did a run succeed? -/
def isOk : Except (HTErr × HashTable K V) (HashTable K V) → Bool
  | .ok _ => true
  | .error _ => false

/-- The kind of error a run produced, if any. -/
def errKind : Except (HTErr × HashTable K V) (HashTable K V) → Option HTErr
  | .ok _ => none
  | .error (e, _) => some e

/-- The pre-call state of the C5 counterexample: a well-formed table at
the second-to-last ladder rung (capacity 842879579) holding the single
live item `(0, 0)` at its home slot 0.  States at this rung are
astronomically large, so they are reasoned about symbolically rather than
by evaluation. -/
def c5state : HashTable Nat Nat :=
  { table := some ⟨0, 0, false⟩ :: List.replicate (capAt 26 - 1) none,
    mIndex := 26, count := 1, used := 1 }

/-- The state carried by the CapacityExhausted error of the C5
counterexample: the freshly allocated last-rung table with the counters
reset, before any item of the old table has been rehashed into it. -/
def c5state' : HashTable Nat Nat :=
  { table := List.replicate (capAt 27) none, mIndex := 27, count := 0,
    used := 0 }

/-- `mkRat` over `Nat` arguments agrees with cast division on `ℚ`
(including the degenerate zero denominator, where both sides are `0`). -/
theorem mkRat_cast_div (u len : Nat) : (mkRat u len : ℚ) = (u : ℚ) / (len : ℚ) := by
  rw [Rat.mkRat_eq_divInt, Rat.divInt_eq_div]
  push_cast
  ring

/-- `needResize` is the comparison `resizeAlpha_ ≤ (used_ + 1) / size`. -/
theorem needResize_eq_div (α : ℚ) (s : HashTable K V) :
    s.needResize α = decide (α ≤ ((s.used : ℚ) + 1) / (s.table.length : ℚ)) := by
  unfold HashTable.needResize
  rw [show (mkRat ((s.used : Int) + 1) s.table.length : ℚ) =
      ((s.used : ℚ) + 1) / (s.table.length : ℚ) by
    rw [Rat.mkRat_eq_divInt, Rat.divInt_eq_div]
    push_cast
    ring]

/-- `needResizeB` is the comparison `alpha_ ≤ used_ / size`. -/
theorem needResizeB_eq_div (α : ℚ) (s : HashTable K V) :
    s.needResizeB α = decide (α ≤ (s.used : ℚ) / (s.table.length : ℚ)) := by
  unfold HashTable.needResizeB
  rw [mkRat_cast_div]



/-!
  ## Elementary list lemmas

Small `getD`/`set` facts used throughout (proved by direct induction to
stay independent of library naming).
-/

theorem getD_set_self {α : Type} (d : α) :
    ∀ (t : List α) (i : Nat) (a : α), i < t.length → (t.set i a).getD i d = a := by
  intro t
  induction t with
  | nil => intro i a h; simp at h
  | cons hd tl ih =>
    intro i a h
    cases i with
    | zero => simp
    | succ j => simpa using ih j a (by simpa using h)

theorem getD_set_ne {α : Type} (d : α) :
    ∀ (t : List α) (i j : Nat) (a : α), i ≠ j → (t.set i a).getD j d = t.getD j d := by
  intro t
  induction t with
  | nil => intro i j a _; simp
  | cons hd tl ih =>
    intro i j a hij
    cases i with
    | zero =>
      cases j with
      | zero => exact absurd rfl hij
      | succ j' => simp
    | succ i' =>
      cases j with
      | zero => simp
      | succ j' => simpa using ih i' j' a (fun h => hij (by rw [h]))

theorem getD_replicate_none :
    ∀ (n i : Nat), (List.replicate n (none : Slot K V)).getD i none = none := by
  intro n
  induction n with
  | zero => intro i; simp
  | succ m ih =>
    intro i
    cases i with
    | zero => simp [List.replicate]
    | succ j => simpa [List.replicate] using ih j

theorem lt_length_of_getD_some :
    ∀ (t : List (Slot K V)) (i : Nat) (it : HashItem K V),
      t.getD i none = some it → i < t.length := by
  intro t
  induction t with
  | nil => intro i it h; simp at h
  | cons hd tl ih =>
    intro i it h
    cases i with
    | zero => simp
    | succ j =>
      simp only [List.getD_cons_succ] at h
      simpa using Nat.succ_lt_succ (ih j it h)

/-!
  ## Chain-index arithmetic

For linear probing from `h0` modulo `m`, the chain visits
`(h0 + j) % m` for `j = 0, 1, …, m - 1`; `chainIdx h0 m i` recovers `j`
from the visited slot `i`.
-/

theorem chainIdx_lt (h0 m i : Nat) (hm : 0 < m) : chainIdx h0 m i < m :=
  Nat.mod_lt _ hm

theorem chainIdx_chain (h0 m : Nat) (h : h0 < m) :
    ∀ j, j < m → chainIdx h0 m ((h0 + j) % m) = j := by
  intro j hj
  unfold chainIdx
  rw [Nat.mod_add_mod, show h0 + j + (m - h0) = j + m by omega,
    Nat.add_mod_right, Nat.mod_eq_of_lt hj]

theorem chain_chainIdx (h0 m i : Nat) (h : h0 < m) (hi : i < m) :
    (h0 + chainIdx h0 m i) % m = i := by
  unfold chainIdx
  rw [Nat.add_mod_mod, show h0 + (i + (m - h0)) = i + m by omega,
    Nat.add_mod_right, Nat.mod_eq_of_lt hi]

theorem chain_inj (h0 m : Nat) (h : h0 < m) {j₁ j₂ : Nat}
    (h₁ : j₁ < m) (h₂ : j₂ < m) (he : (h0 + j₁) % m = (h0 + j₂) % m) : j₁ = j₂ := by
  have := chainIdx_chain h0 m h j₁ h₁
  rw [he, chainIdx_chain h0 m h j₂ h₂] at this
  exact this.symm

/-!
  ## Characterization of the probe loop
-/

theorem probeGo_eq_some (t : List (Slot K V)) (k : K) (start m : Nat) :
    ∀ (fuel i loc : Nat), probeGo t k start m i fuel = some loc →
      ∃ j, i ≤ j ∧ j < m ∧ j < i + fuel ∧ loc = (start + j) % m ∧
        isStop t k ((start + j) % m) = true ∧
        ∀ j', i ≤ j' → j' < j → isStop t k ((start + j') % m) = false := by
  intro fuel
  induction fuel with
  | zero => intro i loc h; simp [probeGo] at h
  | succ f ih =>
    intro i loc h
    by_cases hmi : m ≤ i
    · simp [probeGo, hmi] at h
    · by_cases hstop : isStop t k ((start + i) % m) = true
      · refine ⟨i, Nat.le_refl i, Nat.lt_of_not_le hmi, by omega, ?_, hstop, ?_⟩
        · simp [probeGo, hmi, hstop] at h
          exact h.symm
        · intro j' h1 h2; omega
      · simp only [probeGo, if_neg hmi, Bool.not_eq_true] at h
        rw [if_neg (by simpa using hstop)] at h
        obtain ⟨j, hij, hjm, hjf, hloc, hst, hmin⟩ := ih (i + 1) loc h
        refine ⟨j, by omega, hjm, by omega, hloc, hst, ?_⟩
        intro j' h1 h2
        rcases Nat.eq_or_lt_of_le h1 with he | hlt
        · simpa [← he] using hstop
        · exact hmin j' hlt h2

theorem probeGo_first (t : List (Slot K V)) (k : K) (start m : Nat) :
    ∀ (fuel i J : Nat), i ≤ J → J < m → J < i + fuel →
      isStop t k ((start + J) % m) = true →
      (∀ j', i ≤ j' → j' < J → isStop t k ((start + j') % m) = false) →
      probeGo t k start m i fuel = some ((start + J) % m) := by
  intro fuel
  induction fuel with
  | zero => intro i J h1 h2 h3; omega
  | succ f ih =>
    intro i J h1 h2 h3 hstop hmin
    have hmi : ¬ m ≤ i := by omega
    rcases Nat.eq_or_lt_of_le h1 with he | hlt
    · subst he
      simp [probeGo, hmi, hstop]
    · have hi : isStop t k ((start + i) % m) = false :=
        hmin i (Nat.le_refl i) hlt
      simp only [probeGo, if_neg hmi]
      rw [if_neg (by simp [hi])]
      exact ih (i + 1) J hlt h2 (by omega) hstop
        (fun j' ha hb => hmin j' (by omega) hb)

theorem probeGo_none (t : List (Slot K V)) (k : K) (start m : Nat) :
    ∀ (fuel i : Nat), m ≤ i + fuel → probeGo t k start m i fuel = none →
      ∀ j, i ≤ j → j < m → isStop t k ((start + j) % m) = false := by
  intro fuel
  induction fuel with
  | zero => intro i h1 h2 j hj1 hj2; omega
  | succ f ih =>
    intro i h1 h2 j hj1 hj2
    have hmi : ¬ m ≤ i := by omega
    simp only [probeGo, if_neg hmi] at h2
    by_cases hstop : isStop t k ((start + i) % m) = true
    · rw [if_pos hstop] at h2; exact absurd h2 (by simp)
    · rw [if_neg hstop] at h2
      rcases Nat.eq_or_lt_of_le hj1 with he | hlt
      · subst he; simpa using hstop
      · exact ih (i + 1) (by omega) h2 j hlt hj2

/-!
  ## Bridging slot-level facts and the association-list view
-/

theorem mem_liveEntries_of_liveAt :
    ∀ (t : List (Slot K V)) (i : Nat) (k : K) (v : V),
      liveAt t i k v → (k, v) ∈ liveEntries t := by
  intro t
  induction t with
  | nil => intro i k v h; simp [liveAt] at h
  | cons hd tl ih =>
    intro i k v h
    cases i with
    | zero =>
      simp only [liveAt, List.getD_cons_zero] at h
      subst h
      simp [liveEntries]
    | succ j =>
      simp only [liveAt, List.getD_cons_succ] at h
      have := ih j k v h
      match hd with
      | none => simpa [liveEntries]
      | some it =>
        by_cases hd : it.deleted <;> simp [liveEntries, hd, this]

theorem liveAt_of_mem_liveEntries :
    ∀ (t : List (Slot K V)) (k : K) (v : V),
      (k, v) ∈ liveEntries t → ∃ i, i < t.length ∧ liveAt t i k v := by
  intro t
  induction t with
  | nil => intro k v h; simp [liveEntries] at h
  | cons hd tl ih =>
    intro k v h
    match hd with
    | none =>
      obtain ⟨i, hi, hl⟩ := ih k v (by simpa [liveEntries] using h)
      exact ⟨i + 1, by simpa using Nat.succ_lt_succ hi, by simpa [liveAt] using hl⟩
    | some it =>
      by_cases hdel : it.deleted
      · obtain ⟨i, hi, hl⟩ := ih k v (by simpa [liveEntries, hdel] using h)
        exact ⟨i + 1, by simpa using Nat.succ_lt_succ hi, by simpa [liveAt] using hl⟩
      · simp only [liveEntries, if_neg hdel, List.mem_cons] at h
        rcases h with h | h
        · refine ⟨0, by simp, ?_⟩
          simp only [liveAt, List.getD_cons_zero]
          have : it = ⟨k, v, false⟩ := by
            cases it with
            | mk a b c =>
              simp only [Prod.mk.injEq] at h
              simp [h.1.symm, h.2.symm]
              simpa using hdel
          rw [this]
        · obtain ⟨i, hi, hl⟩ := ih k v h
          exact ⟨i + 1, by simpa using Nat.succ_lt_succ hi, by simpa [liveAt] using hl⟩

theorem mem_of_lookupKV_some :
    ∀ (l : List (K × V)) (k : K) (v : V), lookupKV l k = some v → (k, v) ∈ l := by
  intro l
  induction l with
  | nil => intro k v h; simp [lookupKV] at h
  | cons hd tl ih =>
    intro k v h
    match hd with
    | (k', v') =>
      by_cases hk : k = k'
      · simp only [lookupKV, if_pos hk] at h
        simp [hk, ← Option.some_inj.mp h]
      · simp only [lookupKV, if_neg hk] at h
        simp [ih k v h]

theorem lookupKV_eq_some_of_mem_nodup :
    ∀ (l : List (K × V)) (k : K) (v : V),
      (l.map Prod.fst).Nodup → (k, v) ∈ l → lookupKV l k = some v := by
  intro l
  induction l with
  | nil => intro k v _ h; simp at h
  | cons hd tl ih =>
    intro k v hnd h
    match hd with
    | (k', v') =>
      simp only [List.map_cons, List.nodup_cons] at hnd
      rcases List.mem_cons.mp h with he | hm
      · have hk : k = k' := by simpa using congrArg Prod.fst he
        have hv : v = v' := by simpa using congrArg Prod.snd he
        simp [lookupKV, hk, hv]
      · have hk : ¬ k = k' := by
          intro he'
          exact hnd.1 (by simpa [← he'] using List.mem_map_of_mem Prod.fst hm)
        simp only [lookupKV, if_neg hk]
        exact ih k v hnd.2 hm

theorem lookupKV_eq_none_of_not_mem :
    ∀ (l : List (K × V)) (k : K), (∀ v, (k, v) ∉ l) → lookupKV l k = none := by
  intro l
  induction l with
  | nil => intro k _; simp [lookupKV]
  | cons hd tl ih =>
    intro k h
    match hd with
    | (k', v') =>
      have hk : ¬ k = k' := by
        intro he; exact h v' (by simp [he])
      simp only [lookupKV, if_neg hk]
      exact ih k (fun v hv => h v (List.mem_cons_of_mem _ hv))

theorem not_mem_of_lookupKV_none :
    ∀ (l : List (K × V)) (k : K), lookupKV l k = none → ∀ v, (k, v) ∉ l := by
  intro l
  induction l with
  | nil => intro k _ v hm; simp at hm
  | cons hd tl ih =>
    intro k h v hm
    match hd with
    | (k', v') =>
      by_cases hk : k = k'
      · simp [lookupKV, hk] at h
      · simp only [lookupKV, if_neg hk] at h
        rcases List.mem_cons.mp hm with he | hm'
        · exact hk (by simpa using congrArg Prod.fst he)
        · exact ih k h v hm'

theorem liveAt_unique :
    ∀ (t : List (Slot K V)),
      ((liveEntries t).map Prod.fst).Nodup →
      ∀ i₁ i₂ k v₁ v₂, liveAt t i₁ k v₁ → liveAt t i₂ k v₂ → i₁ = i₂ ∧ v₁ = v₂ := by
  intro t
  induction t with
  | nil => intro _ i₁ i₂ k v₁ v₂ h₁; simp [liveAt] at h₁
  | cons hd tl ih =>
    intro hnd i₁ i₂ k v₁ v₂ h₁ h₂
    cases i₁ with
    | zero =>
      simp only [liveAt, List.getD_cons_zero] at h₁
      cases i₂ with
      | zero =>
        simp only [liveAt, List.getD_cons_zero, h₁] at h₂
        exact ⟨rfl, by simpa using congrArg (fun o => Option.map HashItem.val o) h₂⟩
      | succ j₂ =>
        exfalso
        simp only [liveAt, List.getD_cons_succ] at h₂
        rw [h₁] at hnd
        simp only [liveEntries, Bool.false_eq_true, if_neg (by simp : ¬ False),
          List.map_cons, List.nodup_cons] at hnd
        exact hnd.1 (by simpa using
          List.mem_map_of_mem Prod.fst (mem_liveEntries_of_liveAt tl j₂ k v₂ h₂))
    | succ j₁ =>
      cases i₂ with
      | zero =>
        exfalso
        simp only [liveAt, List.getD_cons_zero] at h₂
        simp only [liveAt, List.getD_cons_succ] at h₁
        rw [h₂] at hnd
        simp only [liveEntries, Bool.false_eq_true, if_neg (by simp : ¬ False),
          List.map_cons, List.nodup_cons] at hnd
        exact hnd.1 (by simpa using
          List.mem_map_of_mem Prod.fst (mem_liveEntries_of_liveAt tl j₁ k v₁ h₁))
      | succ j₂ =>
        simp only [liveAt, List.getD_cons_succ] at h₁ h₂
        have hnd' : ((liveEntries tl).map Prod.fst).Nodup := by
          match hd with
          | none => simpa [liveEntries] using hnd
          | some it =>
            by_cases hdel : it.deleted
            · simpa [liveEntries, hdel] using hnd
            · simpa [liveEntries, hdel] using (List.nodup_cons.mp (by
                simpa [liveEntries, hdel] using hnd)).2
        obtain ⟨hi, hv⟩ := ih hnd' j₁ j₂ k v₁ v₂ h₁ h₂
        exact ⟨by rw [hi], hv⟩

/-!
  ## Unpacking the invariants
-/

theorem reachOk_iff (hf : K → Nat) (t : List (Slot K V)) (m : Nat) :
    reachOk hf t m = true ↔
      ∀ i it, t.getD i none = some it → it.deleted = false →
        ∀ j, j < chainIdx (hf it.key % m) m i →
          (t.getD ((hf it.key % m + j) % m) none).isSome = true := by
  constructor
  · intro h i it hgd hdel j hj
    have hi : i < t.length := lt_length_of_getD_some t i it hgd
    have hall := List.all_eq_true.mp h i (List.mem_range.mpr hi)
    rw [hgd] at hall
    simp only [hdel, Bool.false_eq_true, if_false] at hall
    exact List.all_eq_true.mp hall j (List.mem_range.mpr hj)
  · intro h
    apply List.all_eq_true.mpr
    intro i _
    cases hgd : t.getD i none with
    | none => simp
    | some it =>
      by_cases hdel : it.deleted
      · simp [hdel]
      · simp only [hdel, Bool.false_eq_true, if_false]
        apply List.all_eq_true.mpr
        intro j hj
        exact h i it hgd (by simpa using hdel) j (List.mem_range.mp hj)

theorem capCount_eq : capCount = 28 := rfl

theorem capAt_pos : ∀ i, i < capCount → 0 < capAt i := by decide

theorem capAt_gap : ∀ j, j < capCount → ∀ i, i < j → capAt i + 12 ≤ capAt j := by
  decide

/-!
  ## Probing under the invariant
-/

theorem probe_some_spec (hf : K → Nat) {s : HashTable K V} {k : K} {loc : Nat}
    (h : s.probe hf k = some loc) :
    s.table.getD loc none = none ∨
      ∃ it, s.table.getD loc none = some it ∧ it.deleted = false ∧ it.key = k := by
  obtain ⟨j, _, _, _, hloc, hstop, _⟩ :=
    probeGo_eq_some s.table k (hf k % capAt s.mIndex) (capAt s.mIndex) _ 0 loc h
  rw [← hloc] at hstop
  unfold isStop at hstop
  cases hgd : s.table.getD loc none with
  | none => exact Or.inl rfl
  | some it =>
    rw [hgd] at hstop
    simp only [Bool.and_eq_true, Bool.not_eq_true', decide_eq_true_eq] at hstop
    exact Or.inr ⟨it, rfl, hstop.1, hstop.2⟩

theorem probe_lt_length (hf : K → Nat) {s : HashTable K V} {k : K} {loc : Nat}
    (hlen : s.table.length = capAt s.mIndex) (h : s.probe hf k = some loc) :
    loc < s.table.length := by
  obtain ⟨j, _, hjm, _, hloc, _, _⟩ :=
    probeGo_eq_some s.table k (hf k % capAt s.mIndex) (capAt s.mIndex) _ 0 loc h
  rw [hlen, hloc]
  exact Nat.mod_lt _ (by omega)

theorem probe_of_live (hf : K → Nat) {s : HashTable K V} (hwf : WF hf s)
    {i : Nat} {k : K} {v : V} (hl : liveAt s.table i k v) :
    s.probe hf k = some i := by
  set m := capAt s.mIndex with hm
  have hi : i < s.table.length := lt_length_of_getD_some s.table i _ hl
  have him : i < m := by rw [hm, ← hwf.len_eq]; exact hi
  have hmpos : 0 < m := by omega
  have hh0 : hf k % m < m := Nat.mod_lt _ hmpos
  set h0 := hf k % m with hh0def
  set J := chainIdx h0 m i with hJ
  have hJm : J < m := chainIdx_lt h0 m i hmpos
  have hJi : (h0 + J) % m = i := chain_chainIdx h0 m i hh0 him
  have hreach := (reachOk_iff hf s.table m).mp hwf.reach
  have hstopJ : isStop s.table k ((h0 + J) % m) = true := by
    rw [hJi]
    unfold isStop
    rw [hl]
    simp
  cases hp : s.probe hf k with
  | none =>
    exfalso
    have := probeGo_none s.table k h0 m m 0 (by omega) hp J (Nat.zero_le J) hJm
    rw [this] at hstopJ
    exact Bool.false_ne_true hstopJ
  | some loc =>
    obtain ⟨j, _, hjm, _, hloc, hstop, hmin⟩ := probeGo_eq_some s.table k h0 m m 0 loc hp
    have hjJ : j ≤ J := by
      by_contra hgt
      have := hmin J (Nat.zero_le J) (by omega)
      rw [this] at hstopJ
      exact Bool.false_ne_true hstopJ
    have hsome : ∃ it, s.table.getD loc none = some it := by
      rcases Nat.eq_or_lt_of_le hjJ with he | hlt
      · exact ⟨_, by rw [hloc, he, hJi]; exact hl⟩
      · have := hreach i _ hl rfl j (by rw [← hJ]; exact hlt)
        rw [← hloc] at this
        exact Option.isSome_iff_exists.mp this
      -- note: the item's key hash is `hf k` because the stored key is `k`
    obtain ⟨it, hit⟩ := hsome
    rw [← hloc] at hstop
    unfold isStop at hstop
    rw [hit] at hstop
    simp only [Bool.and_eq_true, Bool.not_eq_true', decide_eq_true_eq] at hstop
    have hlive : liveAt s.table loc k it.val := by
      unfold liveAt
      rw [hit]
      cases it with
      | mk a b c =>
        simp only at hstop
        simp [hstop.2, hstop.1]
    have := liveAt_unique s.table hwf.nodup loc i k it.val v hlive hl
    rw [this.1]

theorem findVal_eq_liveVal (hf : K → Nat) {s : HashTable K V} (hwf : WF hf s)
    (k : K) : s.findVal hf k = s.liveVal k := by
  cases hlv : s.liveVal k with
  | some v =>
    obtain ⟨i, _, hl⟩ :=
      liveAt_of_mem_liveEntries s.table k v (mem_of_lookupKV_some _ k v hlv)
    have hp := probe_of_live hf hwf hl
    unfold HashTable.findVal HashTable.find
    rw [hp]
    simp only [liveAt, List.getD_eq_getElem?_getD] at hl
    simp [hl]
  | none =>
    have habs : ∀ i v, ¬ liveAt s.table i k v := by
      intro i v hl
      have hsome : s.liveVal k = some v := lookupKV_eq_some_of_mem_nodup _ k v
        hwf.nodup (mem_liveEntries_of_liveAt s.table i k v hl)
      rw [hlv] at hsome
      exact Option.noConfusion hsome
    unfold HashTable.findVal HashTable.find
    cases hp : s.probe hf k with
    | none => rfl
    | some loc =>
      rcases probe_some_spec hf hp with hn | ⟨it, hit, hdel, hkey⟩
      · simp only [List.getD_eq_getElem?_getD] at hn
        simp [hn]
      · exfalso
        refine habs loc it.val ?_
        unfold liveAt
        rw [hit]
        cases it with
        | mk a b c =>
          simp only at hdel hkey
          simp [hdel, hkey]

/-!
  ## How `set` transforms the live-entry view
-/

theorem set_of_length_le {α : Type} :
    ∀ (t : List α) (i : Nat) (a : α), t.length ≤ i → t.set i a = t := by
  intro t
  induction t with
  | nil => intro i a _; simp
  | cons hd tl ih =>
    intro i a h
    cases i with
    | zero => simp at h
    | succ j => simpa using ih j a (by simpa using h)

theorem perm_liveEntries_set_none :
    ∀ (t : List (Slot K V)) (i : Nat) (k : K) (v : V),
      i < t.length → t.getD i none = none →
      (liveEntries (t.set i (some ⟨k, v, false⟩))).Perm ((k, v) :: liveEntries t) := by
  intro t
  induction t with
  | nil => intro i k v h; simp at h
  | cons hd tl ih =>
    intro i k v hlen hgd
    cases i with
    | zero =>
      simp only [List.getD_cons_zero] at hgd
      subst hgd
      simp [liveEntries]
    | succ j =>
      simp only [List.getD_cons_succ] at hgd
      have hperm := ih j k v (by simpa using hlen) hgd
      match hd with
      | none => simpa [liveEntries, List.set] using hperm
      | some it =>
        by_cases hdel : it.deleted
        · simpa [liveEntries, List.set, hdel] using hperm
        · simp only [liveEntries, List.set, if_neg hdel]
          exact (hperm.cons (it.key, it.val)).trans (List.Perm.swap _ _ _)

theorem lookup_liveEntries_set_none :
    ∀ (t : List (Slot K V)) (i : Nat) (k : K) (v : V),
      i < t.length → t.getD i none = none →
      (∀ v', (k, v') ∉ liveEntries t) →
      ∀ k₂, lookupKV (liveEntries (t.set i (some ⟨k, v, false⟩))) k₂ =
        if k₂ = k then some v else lookupKV (liveEntries t) k₂ := by
  intro t
  induction t with
  | nil => intro i k v h; simp at h
  | cons hd tl ih =>
    intro i k v hlen hgd habs k₂
    cases i with
    | zero =>
      simp only [List.getD_cons_zero] at hgd
      subst hgd
      simp [liveEntries, lookupKV]
    | succ j =>
      simp only [List.getD_cons_succ] at hgd
      have habs' : ∀ v', (k, v') ∉ liveEntries tl := by
        intro v' hm
        refine habs v' ?_
        match hd with
        | none => simpa [liveEntries] using hm
        | some it =>
          by_cases hdel : it.deleted
          · simpa [liveEntries, hdel] using hm
          · simp only [liveEntries, if_neg hdel]
            exact List.mem_cons_of_mem _ hm
      have hih := ih j k v (by simpa using hlen) hgd habs' k₂
      match hd with
      | none => simpa [liveEntries, List.set] using hih
      | some it =>
        by_cases hdel : it.deleted
        · simpa [liveEntries, List.set, hdel] using hih
        · simp only [liveEntries, List.set, if_neg hdel, lookupKV]
          by_cases hk₂ : k₂ = it.key
          · have hkne : ¬ it.key = k := by
              intro he
              exact habs it.val (by simp [liveEntries, hdel, he])
            simp [hk₂, hkne, lookupKV]
          · simp only [if_neg hk₂]
            exact hih

theorem occupiedCount_set_none :
    ∀ (t : List (Slot K V)) (i : Nat) (x : HashItem K V),
      i < t.length → t.getD i none = none →
      occupiedCount (t.set i (some x)) = occupiedCount t + 1 := by
  intro t
  induction t with
  | nil => intro i x h; simp at h
  | cons hd tl ih =>
    intro i x hlen hgd
    cases i with
    | zero =>
      simp only [List.getD_cons_zero] at hgd
      subst hgd
      simp [occupiedCount]
    | succ j =>
      simp only [List.getD_cons_succ] at hgd
      have := ih j x (by simpa using hlen) hgd
      match hd with
      | none => simpa [occupiedCount, List.set] using this
      | some it => simpa [occupiedCount, List.set] using this

theorem occupiedCount_set_some :
    ∀ (t : List (Slot K V)) (i : Nat) (it x : HashItem K V),
      t.getD i none = some it →
      occupiedCount (t.set i (some x)) = occupiedCount t := by
  intro t
  induction t with
  | nil => intro i it x h; simp at h
  | cons hd tl ih =>
    intro i it x hgd
    cases i with
    | zero =>
      simp only [List.getD_cons_zero] at hgd
      subst hgd
      simp [occupiedCount]
    | succ j =>
      simp only [List.getD_cons_succ] at hgd
      have := ih j it x hgd
      match hd with
      | none => simpa [occupiedCount, List.set] using this
      | some it' => simpa [occupiedCount, List.set] using this

theorem keys_liveEntries_set_live :
    ∀ (t : List (Slot K V)) (i : Nat) (k : K) (v₀ v : V),
      t.getD i none = some ⟨k, v₀, false⟩ →
      (liveEntries (t.set i (some ⟨k, v, false⟩))).map Prod.fst =
        (liveEntries t).map Prod.fst := by
  intro t
  induction t with
  | nil => intro i k v₀ v h; simp at h
  | cons hd tl ih =>
    intro i k v₀ v hgd
    cases i with
    | zero =>
      simp only [List.getD_cons_zero] at hgd
      subst hgd
      simp [liveEntries]
    | succ j =>
      simp only [List.getD_cons_succ] at hgd
      have := ih j k v₀ v hgd
      match hd with
      | none => simpa [liveEntries, List.set] using this
      | some it =>
        by_cases hdel : it.deleted
        · simpa [liveEntries, List.set, hdel] using this
        · simpa [liveEntries, List.set, hdel] using this

theorem lookup_liveEntries_set_live :
    ∀ (t : List (Slot K V)) (i : Nat) (k : K) (v₀ v : V),
      ((liveEntries t).map Prod.fst).Nodup →
      t.getD i none = some ⟨k, v₀, false⟩ →
      ∀ k₂, lookupKV (liveEntries (t.set i (some ⟨k, v, false⟩))) k₂ =
        if k₂ = k then some v else lookupKV (liveEntries t) k₂ := by
  intro t
  induction t with
  | nil => intro i k v₀ v _ h; simp at h
  | cons hd tl ih =>
    intro i k v₀ v hnd hgd k₂
    cases i with
    | zero =>
      simp only [List.getD_cons_zero] at hgd
      subst hgd
      by_cases hk₂ : k₂ = k
      · simp [liveEntries, lookupKV, hk₂]
      · simp [liveEntries, lookupKV, hk₂]
    | succ j =>
      simp only [List.getD_cons_succ] at hgd
      match hd with
      | none =>
        have hih := ih j k v₀ v (by simpa [liveEntries] using hnd) hgd k₂
        simpa [liveEntries, List.set] using hih
      | some it =>
        by_cases hdel : it.deleted
        · have hih := ih j k v₀ v (by simpa [liveEntries, hdel] using hnd) hgd k₂
          simpa [liveEntries, List.set, hdel] using hih
        · have hnd2 : (∀ x : V, (it.key, x) ∉ liveEntries tl) ∧
              ((liveEntries tl).map Prod.fst).Nodup := by
            simpa [liveEntries, hdel] using hnd
          have hih := ih j k v₀ v hnd2.2 hgd k₂
          have hkne : ¬ it.key = k := by
            intro he
            exact hnd2.1 v₀ (by rw [he]; exact mem_liveEntries_of_liveAt tl j k v₀ hgd)
          simp only [liveEntries, List.set, if_neg hdel, lookupKV]
          by_cases hk₂ : k₂ = it.key
          · have : ¬ k₂ = k := by rw [hk₂]; exact hkne
            simp [hk₂, this, hkne]
          · simp only [if_neg hk₂]
            exact hih

theorem keys_liveEntries_set_tomb :
    ∀ (t : List (Slot K V)) (i : Nat) (k : K) (v₀ : V),
      t.getD i none = some ⟨k, v₀, false⟩ →
      ((liveEntries (t.set i (some ⟨k, v₀, true⟩))).map Prod.fst).Sublist
        ((liveEntries t).map Prod.fst) ∧
      (liveEntries (t.set i (some ⟨k, v₀, true⟩))).length + 1 =
        (liveEntries t).length := by
  intro t
  induction t with
  | nil => intro i k v₀ h; simp at h
  | cons hd tl ih =>
    intro i k v₀ hgd
    cases i with
    | zero =>
      simp only [List.getD_cons_zero] at hgd
      subst hgd
      constructor
      · rw [List.set_cons_zero]
        have h1 : liveEntries ((some ⟨k, v₀, true⟩ : Slot K V) :: tl) = liveEntries tl := by
          simp [liveEntries]
        have h2 : liveEntries ((some ⟨k, v₀, false⟩ : Slot K V) :: tl) =
            (k, v₀) :: liveEntries tl := by
          simp [liveEntries]
        rw [h1, h2, List.map_cons]
        exact List.sublist_cons_self _ _
      · simp [liveEntries]
    | succ j =>
      simp only [List.getD_cons_succ] at hgd
      obtain ⟨hsub, hlen⟩ := ih j k v₀ hgd
      match hd with
      | none =>
        exact ⟨by simpa [liveEntries, List.set] using hsub,
          by simpa [liveEntries, List.set] using hlen⟩
      | some it =>
        by_cases hdel : it.deleted
        · exact ⟨by simpa [liveEntries, List.set, hdel] using hsub,
            by simpa [liveEntries, List.set, hdel] using hlen⟩
        · constructor
          · simp only [liveEntries, List.set, if_neg hdel, List.map_cons]
            exact hsub.cons₂ _
          · simp only [liveEntries, List.set, if_neg hdel, List.length_cons]
            omega

theorem lookup_liveEntries_set_tomb_self :
    ∀ (t : List (Slot K V)) (i : Nat) (k : K) (v₀ : V),
      ((liveEntries t).map Prod.fst).Nodup →
      t.getD i none = some ⟨k, v₀, false⟩ →
      lookupKV (liveEntries (t.set i (some ⟨k, v₀, true⟩))) k = none := by
  intro t
  induction t with
  | nil => intro i k v₀ _ h; simp at h
  | cons hd tl ih =>
    intro i k v₀ hnd hgd
    cases i with
    | zero =>
      simp only [List.getD_cons_zero] at hgd
      subst hgd
      simp only [liveEntries, List.set]
      have hnd2 : (∀ x : V, (k, x) ∉ liveEntries tl) ∧
          ((liveEntries tl).map Prod.fst).Nodup := by
        simpa [liveEntries] using hnd
      simpa using lookupKV_eq_none_of_not_mem _ k hnd2.1
    | succ j =>
      simp only [List.getD_cons_succ] at hgd
      match hd with
      | none =>
        have hih := ih j k v₀ (by simpa [liveEntries] using hnd) hgd
        simpa [liveEntries, List.set] using hih
      | some it =>
        by_cases hdel : it.deleted
        · have hih := ih j k v₀ (by simpa [liveEntries, hdel] using hnd) hgd
          simpa [liveEntries, List.set, hdel] using hih
        · have hnd2 : (∀ x : V, (it.key, x) ∉ liveEntries tl) ∧
              ((liveEntries tl).map Prod.fst).Nodup := by
            simpa [liveEntries, hdel] using hnd
          have hih := ih j k v₀ hnd2.2 hgd
          have hkne : ¬ k = it.key := by
            intro he
            exact hnd2.1 v₀ (by rw [← he]; exact mem_liveEntries_of_liveAt tl j k v₀ hgd)
          simp only [liveEntries, List.set, if_neg hdel, lookupKV, if_neg hkne]
          exact hih

theorem lookup_liveEntries_set_tomb_other :
    ∀ (t : List (Slot K V)) (i : Nat) (k : K) (v₀ : V),
      t.getD i none = some ⟨k, v₀, false⟩ →
      ∀ k₂, k₂ ≠ k →
        lookupKV (liveEntries (t.set i (some ⟨k, v₀, true⟩))) k₂ =
          lookupKV (liveEntries t) k₂ := by
  intro t
  induction t with
  | nil => intro i k v₀ h; simp at h
  | cons hd tl ih =>
    intro i k v₀ hgd k₂ hk₂
    cases i with
    | zero =>
      simp only [List.getD_cons_zero] at hgd
      subst hgd
      simp [liveEntries, lookupKV, hk₂]
    | succ j =>
      simp only [List.getD_cons_succ] at hgd
      have hih := ih j k v₀ hgd k₂ hk₂
      match hd with
      | none => simpa [liveEntries, List.set] using hih
      | some it =>
        by_cases hdel : it.deleted
        · simpa [liveEntries, List.set, hdel] using hih
        · simp only [liveEntries, List.set, if_neg hdel, lookupKV]
          by_cases hk : k₂ = it.key
          · simp [hk]
          · simp only [if_neg hk]
            exact hih

/-!
  ## Preservation helpers
-/

theorem isSome_of_isStop_false {t : List (Slot K V)} {k : K} {l : Nat}
    (h : isStop t k l = false) : (t.getD l none).isSome = true := by
  unfold isStop at h
  cases hgd : t.getD l none with
  | none => rw [hgd] at h; simp at h
  | some it => simp

theorem isSome_getD_set_some (t : List (Slot K V)) (i j : Nat) (x : HashItem K V)
    (h : (t.getD j none).isSome = true) :
    ((t.set i (some x)).getD j none).isSome = true := by
  by_cases hij : i = j
  · subst hij
    by_cases hlen : i < t.length
    · rw [getD_set_self _ t i _ hlen]; simp
    · rw [set_of_length_le t i _ (by omega)]; exact h
  · rw [getD_set_ne _ t i j _ hij]; exact h

theorem noDeleted_set_live {t : List (Slot K V)} (i : Nat) (k : K) (v : V)
    (h : noDeleted t) : noDeleted (t.set i (some ⟨k, v, false⟩)) := by
  intro j it hgd
  by_cases hij : i = j
  · subst hij
    by_cases hlen : i < t.length
    · rw [getD_set_self _ t i _ hlen] at hgd
      cases hgd; rfl
    · rw [set_of_length_le t i _ (by omega)] at hgd
      exact h i it hgd
  · rw [getD_set_ne _ t i j _ hij] at hgd
    exact h j it hgd

theorem noDeleted_cons_tail {hd : Slot K V} {tl : List (Slot K V)}
    (h : noDeleted (hd :: tl)) : noDeleted tl := by
  intro j it hgd
  exact h (j + 1) it (by simpa using hgd)

theorem liveEntries_length_le_occupiedCount :
    ∀ (t : List (Slot K V)), (liveEntries t).length ≤ occupiedCount t := by
  intro t
  induction t with
  | nil => simp [liveEntries, occupiedCount]
  | cons hd tl ih =>
    match hd with
    | none => simpa [liveEntries, occupiedCount] using ih
    | some it =>
      by_cases hdel : it.deleted
      · simp only [liveEntries, occupiedCount, if_pos hdel]
        omega
      · simp only [liveEntries, occupiedCount, if_neg hdel, List.length_cons]
        omega

theorem occupiedCount_eq_of_noDeleted :
    ∀ (t : List (Slot K V)), noDeleted t → occupiedCount t = (liveEntries t).length := by
  intro t
  induction t with
  | nil => intro _; simp [liveEntries, occupiedCount]
  | cons hd tl ih =>
    intro h
    match hd with
    | none => simpa [liveEntries, occupiedCount] using ih (noDeleted_cons_tail h)
    | some it =>
      have hdel : it.deleted = false := h 0 it (by simp)
      simp only [liveEntries, occupiedCount, hdel, Bool.false_eq_true, if_false,
        List.length_cons]
      rw [ih (noDeleted_cons_tail h)]

theorem liveEntries_replicate (n : Nat) :
    liveEntries (List.replicate n (none : Slot K V)) = [] := by
  induction n with
  | zero => simp [liveEntries]
  | succ m ih => simpa [List.replicate, liveEntries] using ih

theorem occupiedCount_replicate (n : Nat) :
    occupiedCount (List.replicate n (none : Slot K V)) = 0 := by
  induction n with
  | zero => simp [occupiedCount]
  | succ m ih => simpa [List.replicate, occupiedCount] using ih

theorem noDeleted_replicate (n : Nat) :
    noDeleted (List.replicate n (none : Slot K V)) := by
  intro j it hgd
  rw [getD_replicate_none] at hgd
  exact Option.noConfusion hgd

theorem wf_fresh (hf : K → Nat) (mi : Nat) (h : mi < capCount) :
    WF hf ({ table := List.replicate (capAt mi) none, mIndex := mi,
             count := 0, used := 0 } : HashTable K V) := by
  refine ⟨h, by simp, by simp [liveEntries_replicate], by simp [occupiedCount_replicate],
    by simp [liveEntries_replicate], ?_⟩
  rw [reachOk_iff]
  intro i it hgd
  rw [getD_replicate_none] at hgd
  exact absurd hgd (by simp)

theorem wf_init (hf : K → Nat) : WF hf (HashTable.init K V) :=
  wf_fresh hf 0 (by rw [capCount_eq]; omega)

theorem no_live_of_empty_probed (hf : K → Nat) {s : HashTable K V} (hwf : WF hf s)
    {k : K} {loc : Nat} (hp : s.probe hf k = some loc)
    (hgd : s.table.getD loc none = none) :
    ∀ v', (k, v') ∉ liveEntries s.table := by
  intro v' hm
  obtain ⟨i, _, hl⟩ := liveAt_of_mem_liveEntries _ _ _ hm
  have hpi := probe_of_live hf hwf hl
  rw [hp] at hpi
  have : loc = i := Option.some_inj.mp hpi
  subst this
  rw [liveAt, hgd] at hl
  exact Option.noConfusion hl

theorem reach_set_live (hf : K → Nat) {s : HashTable K V} (hwf : WF hf s)
    {loc : Nat} {k : K} {v : V} (hloc_lt : loc < s.table.length)
    (hchain : ∀ j, j < chainIdx (hf k % capAt s.mIndex) (capAt s.mIndex) loc →
      (s.table.getD ((hf k % capAt s.mIndex + j) % capAt s.mIndex) none).isSome = true) :
    reachOk hf (s.table.set loc (some ⟨k, v, false⟩)) (capAt s.mIndex) = true := by
  rw [reachOk_iff]
  intro i it hgd' hdel' j hj
  by_cases hiloc : i = loc
  · subst hiloc
    rw [getD_set_self _ s.table i _ hloc_lt] at hgd'
    have hit : it = ⟨k, v, false⟩ := by cases hgd'; rfl
    subst hit
    simp only at hj ⊢
    exact isSome_getD_set_some _ _ _ _ (hchain j hj)
  · rw [getD_set_ne _ s.table loc i _ (fun h => hiloc h.symm)] at hgd'
    have := (reachOk_iff hf s.table (capAt s.mIndex)).mp hwf.reach i it hgd' hdel' j hj
    exact isSome_getD_set_some _ _ _ _ this

theorem place_spec (hf : K → Nat) {s s' : HashTable K V} {k : K} {v : V}
    (hwf : WF hf s) (hok : s.place hf (k, v) = .ok s') :
    WF hf s' ∧
    (∀ k₂, s'.liveVal k₂ = if k₂ = k then some v else s.liveVal k₂) ∧
    s'.count = s.count + (if (s.liveVal k).isNone then 1 else 0) ∧
    s'.used = s.used + (if (s.liveVal k).isNone then 1 else 0) ∧
    s'.mIndex = s.mIndex ∧ s'.table.length = s.table.length ∧
    (noDeleted s.table → noDeleted s'.table) ∧
    (∀ i it, s.table.getD i none = some it → it.deleted = true →
      s'.table.getD i none = some it) := by
  unfold HashTable.place at hok
  simp only at hok
  have hm0 : 0 < capAt s.mIndex := capAt_pos _ hwf.mIndex_lt
  cases hp : s.probe hf k with
  | none => rw [hp] at hok; exact absurd hok (by simp)
  | some loc =>
    rw [hp] at hok
    simp only at hok
    have hloc_lt : loc < s.table.length := probe_lt_length hf hwf.len_eq hp
    obtain ⟨jp, _, hjpm, _, hlocEq, hstopp, hpre⟩ :=
      probeGo_eq_some s.table k (hf k % capAt s.mIndex) (capAt s.mIndex) _ 0 loc hp
    have hh0 : hf k % capAt s.mIndex < capAt s.mIndex := Nat.mod_lt _ hm0
    have hcj : chainIdx (hf k % capAt s.mIndex) (capAt s.mIndex) loc = jp := by
      rw [hlocEq]; exact chainIdx_chain _ _ hh0 jp hjpm
    cases hgd : s.table.getD loc none with
    | none =>
      rw [hgd] at hok
      simp only [Except.ok.injEq] at hok
      subst hok
      have habs := no_live_of_empty_probed hf hwf hp hgd
      have hlvk : s.liveVal k = none := lookupKV_eq_none_of_not_mem _ k habs
      have hperm := perm_liveEntries_set_none s.table loc k v hloc_lt hgd
      have hknotmem : k ∉ (liveEntries s.table).map Prod.fst := by
        intro hmem
        obtain ⟨⟨k₂, v₂⟩, hm, hfst⟩ := List.mem_map.mp hmem
        simp only at hfst
        subst hfst
        exact habs v₂ hm
      refine ⟨⟨hwf.mIndex_lt, by simpa using hwf.len_eq,
        by simpa [hperm.length_eq] using by rw [hwf.count_eq],
        by simpa [occupiedCount_set_none s.table loc _ hloc_lt hgd] using
          by rw [hwf.used_eq],
        ?_, ?_⟩, ?_, ?_, ?_, rfl, by simp, ?_, ?_⟩
      · have hpm : ((liveEntries (s.table.set loc (some ⟨k, v, false⟩))).map
            Prod.fst).Perm (k :: (liveEntries s.table).map Prod.fst) := by
          simpa using hperm.map Prod.fst
        exact hpm.nodup_iff.mpr (List.nodup_cons.mpr ⟨hknotmem, hwf.nodup⟩)
      · refine reach_set_live hf hwf hloc_lt ?_
        intro j hj
        rw [hcj] at hj
        exact isSome_of_isStop_false (hpre j (Nat.zero_le j) hj)
      · intro k₂
        exact lookup_liveEntries_set_none s.table loc k v hloc_lt hgd habs k₂
      · rw [hlvk]; simp
      · rw [hlvk]; simp
      · intro _
        exact noDeleted_set_live loc k v ‹noDeleted s.table›
      · intro i it hgd' hdel'
        have hne : loc ≠ i := by
          intro he
          rw [← he, hgd] at hgd'
          exact Option.noConfusion hgd'
        rw [getD_set_ne _ s.table loc i _ hne]
        exact hgd'
    | some it =>
      rw [hgd] at hok
      simp only [Except.ok.injEq] at hok
      subst hok
      obtain ⟨ik, iv, idel⟩ := it
      rcases probe_some_spec hf hp with hn | ⟨it2, hit2, hdel2, hkey2⟩
      · rw [hgd] at hn; exact absurd hn (by simp)
      rw [hgd] at hit2
      have hit2eq : it2 = ⟨ik, iv, idel⟩ := by cases hit2; rfl
      subst hit2eq
      simp only at hdel2 hkey2
      subst hdel2
      subst hkey2
      have hlive : liveAt s.table loc ik iv := hgd
      have hlvk : s.liveVal ik = some iv :=
        lookupKV_eq_some_of_mem_nodup _ ik iv hwf.nodup
          (mem_liveEntries_of_liveAt _ _ _ _ hlive)
      have hkeys := keys_liveEntries_set_live s.table loc ik iv v hgd
      have hlen_eq : (liveEntries (s.table.set loc (some ⟨ik, v, false⟩))).length =
          (liveEntries s.table).length := by
        have h1 := congrArg List.length hkeys
        simpa using h1
      refine ⟨⟨hwf.mIndex_lt, by simpa using hwf.len_eq,
        by simpa [hlen_eq] using by rw [hwf.count_eq],
        by simpa [occupiedCount_set_some s.table loc _ _ hgd] using
          by rw [hwf.used_eq],
        by rw [hkeys]; exact hwf.nodup, ?_⟩, ?_, ?_, ?_, rfl, by simp, ?_, ?_⟩
      · refine reach_set_live hf hwf hloc_lt ?_
        intro j hj
        exact (reachOk_iff hf s.table (capAt s.mIndex)).mp hwf.reach loc
          ⟨ik, iv, false⟩ hgd rfl j hj
      · intro k₂
        exact lookup_liveEntries_set_live s.table loc ik iv v hwf.nodup hgd k₂
      · rw [hlvk]; simp
      · rw [hlvk]; simp
      · intro _
        exact noDeleted_set_live loc ik v ‹noDeleted s.table›
      · intro i it' hgd' hdel'
        have hne : loc ≠ i := by
          intro he
          rw [← he, hgd] at hgd'
          cases hgd'
          exact Bool.false_ne_true hdel'
        rw [getD_set_ne _ s.table loc i _ hne]
        exact hgd'

theorem refill_spec (hf : K → Nat)
    (ins : HashTable K V → K × V → Except (HTErr × HashTable K V) (HashTable K V))
    (HI : InsContract hf ins) :
    ∀ (slots : List (Slot K V)) (acc out : HashTable K V),
      WF hf acc →
      ((liveEntries slots).map Prod.fst).Nodup →
      (∀ k v, (k, v) ∈ liveEntries slots → acc.liveVal k = none) →
      noDeleted acc.table →
      refill ins acc slots = .ok out →
      WF hf out ∧
      (∀ k₂, out.liveVal k₂ = (match lookupKV (liveEntries slots) k₂ with
        | some v => some v
        | none => acc.liveVal k₂)) ∧
      out.count = acc.count + (liveEntries slots).length ∧
      noDeleted out.table ∧ acc.mIndex ≤ out.mIndex := by
  intro slots
  induction slots with
  | nil =>
    intro acc out hwf _ _ hnd hok
    simp only [refill, Except.ok.injEq] at hok
    subst hok
    exact ⟨hwf, fun k₂ => by simp [liveEntries, lookupKV], by simp [liveEntries],
      hnd, Nat.le_refl _⟩
  | cons hd rest ih =>
    intro acc out hwf hnodup hdisj hnd hok
    match hd with
    | none =>
      simp only [refill] at hok
      have := ih acc out hwf (by simpa [liveEntries] using hnodup)
        (fun k v hm => hdisj k v (by simpa [liveEntries] using hm)) hnd hok
      simpa [liveEntries] using this
    | some it =>
      by_cases hdel : it.deleted
      · simp only [refill, if_pos hdel] at hok
        have := ih acc out hwf (by simpa [liveEntries, hdel] using hnodup)
          (fun k v hm => hdisj k v (by simpa [liveEntries, hdel] using hm)) hnd hok
        simpa [liveEntries, hdel] using this
      · simp only [refill, if_neg hdel] at hok
        cases hins : ins acc (it.key, it.val) with
        | error e => rw [hins] at hok; exact absurd hok (by simp)
        | ok acc₁ =>
          rw [hins] at hok
          obtain ⟨hwf₁, hlv₁, hc₁, hnd₁, hmi₁⟩ :=
            HI acc acc₁ it.key it.val hwf hins
          have hle : liveEntries (some it :: rest) =
              (it.key, it.val) :: liveEntries rest := by
            simp [liveEntries, hdel]
          rw [hle] at hnodup hdisj
          have hheadnotin : it.key ∉ (liveEntries rest).map Prod.fst :=
            (List.nodup_cons.mp (by simpa using hnodup)).1
          have hnodup' : ((liveEntries rest).map Prod.fst).Nodup :=
            (List.nodup_cons.mp (by simpa using hnodup)).2
          have hdisj' : ∀ k v, (k, v) ∈ liveEntries rest → acc₁.liveVal k = none := by
            intro k v hm
            have hkne : ¬ k = it.key := by
              intro he
              exact hheadnotin (by
                rw [← he]
                simpa using List.mem_map_of_mem Prod.fst hm)
            rw [hlv₁ k, if_neg hkne]
            exact hdisj k v (List.mem_cons_of_mem _ hm)
          obtain ⟨hwfO, hlvO, hcO, hndO, hmiO⟩ :=
            ih acc₁ out hwf₁ hnodup' hdisj' (hnd₁ hnd) hok
          refine ⟨hwfO, ?_, ?_, hndO, Nat.le_trans hmi₁ hmiO⟩
          · intro k₂
            by_cases hk₂ : k₂ = it.key
            · have hlrest : lookupKV (liveEntries rest) k₂ = none := by
                apply lookupKV_eq_none_of_not_mem
                intro v hv
                refine hheadnotin ?_
                rw [← hk₂]
                simpa using List.mem_map_of_mem Prod.fst hv
              have h1 : out.liveVal k₂ = acc₁.liveVal k₂ := by
                rw [hlvO k₂, hlrest]
              have h2 : acc₁.liveVal k₂ = some it.val := by
                rw [hlv₁ k₂, if_pos hk₂]
              have h3 : lookupKV (liveEntries (some it :: rest)) k₂ = some it.val := by
                rw [hle]
                simp [lookupKV, hk₂]
              rw [h1, h2, h3]
            · have h3 : lookupKV (liveEntries (some it :: rest)) k₂ =
                  lookupKV (liveEntries rest) k₂ := by
                rw [hle]
                simp [lookupKV, hk₂]
              rw [hlvO k₂, h3]
              cases hlr : lookupKV (liveEntries rest) k₂ with
              | some v => rfl
              | none => rw [hlv₁ k₂, if_neg hk₂]
          · have hnone : acc.liveVal it.key = none :=
              hdisj it.key it.val (List.mem_cons_self _ _)
            have hone : (if (none : Option V).isNone then 1 else 0) = 1 := rfl
            rw [hcO, hc₁, hnone, hone, hle]
            simp only [List.length_cons]
            omega

theorem resize_spec (hf : K → Nat)
    (ins : HashTable K V → K × V → Except (HTErr × HashTable K V) (HashTable K V))
    (HI : InsContract hf ins) {s out : HashTable K V}
    (hwf : WF hf s) (hok : resizeWith ins s = .ok out) :
    WF hf out ∧ (∀ k₂, out.liveVal k₂ = s.liveVal k₂) ∧
    out.count = s.count ∧ out.used = s.count ∧
    noDeleted out.table ∧ s.mIndex < out.mIndex := by
  unfold resizeWith at hok
  by_cases hcap : capCount ≤ s.mIndex + 1
  · rw [if_pos hcap] at hok
    exact absurd hok (by simp)
  · rw [if_neg hcap] at hok
    have hmi : s.mIndex + 1 < capCount := by omega
    have hwfF : WF hf ({ table := List.replicate (capAt (s.mIndex + 1)) none,
                         mIndex := s.mIndex + 1, count := 0, used := 0 } : HashTable K V) :=
      wf_fresh hf (s.mIndex + 1) hmi
    have hdisj : ∀ k v, (k, v) ∈ liveEntries s.table →
        HashTable.liveVal ({ table := List.replicate (capAt (s.mIndex + 1)) none,
                             mIndex := s.mIndex + 1, count := 0, used := 0 } : HashTable K V)
          k = none := by
      intro k v _
      simp [HashTable.liveVal, liveEntries_replicate, lookupKV]
    obtain ⟨hwfO, hlvO, hcO, hndO, hmiO⟩ :=
      refill_spec hf ins HI s.table _ out hwfF hwf.nodup hdisj
        (noDeleted_replicate _) hok
    refine ⟨hwfO, ?_, ?_, ?_, hndO, ?_⟩
    · intro k₂
      rw [hlvO k₂]
      cases hl : lookupKV (liveEntries s.table) k₂ with
      | some v => exact hl.symm
      | none =>
        show lookupKV (liveEntries (List.replicate (capAt (s.mIndex + 1)) none)) k₂ =
          s.liveVal k₂
        rw [liveEntries_replicate]
        exact hl.symm
    · rw [hcO]
      simpa using hwf.count_eq.symm
    · rw [hwfO.used_eq, occupiedCount_eq_of_noDeleted _ hndO, ← hwfO.count_eq, hcO]
      simpa using hwf.count_eq.symm
    · exact Nat.lt_of_lt_of_le (Nat.lt_succ_self _) hmiO

/-- The master refinement lemma for `ht.h`'s `insert`: a successful insert
updates the logical map at exactly the inserted key, preserves the
structural invariant, bumps `count_` iff the key was not live, never
introduces tombstones, and never moves the capacity index backwards. -/
theorem insertFuel_spec (hf : K → Nat) (α : ℚ) :
    ∀ (fuel : Nat),
      InsContract hf (fun (s : HashTable K V) (p : K × V) => insertFuel hf α fuel s p) := by
  intro fuel
  induction fuel with
  | zero =>
    intro s s' k v hwf hok
    unfold insertFuel at hok
    by_cases hnr : s.needResize α = true
    · rw [if_pos hnr] at hok
      exact absurd hok (by simp)
    · rw [if_neg hnr] at hok
      obtain ⟨h1, h2, h3, h4, h5, h6, h7, h8⟩ := place_spec hf hwf hok
      exact ⟨h1, h2, h3, h7, Nat.le_of_eq h5.symm⟩
  | succ f ih =>
    intro s s' k v hwf hok
    unfold insertFuel at hok
    by_cases hnr : s.needResize α = true
    · rw [if_pos hnr] at hok
      cases hrz : resizeWith (insertFuel hf α f) s with
      | error e => rw [hrz] at hok; exact absurd hok (by simp)
      | ok sR =>
        rw [hrz] at hok
        obtain ⟨hwfR, hlvR, hcR, husR, hndR, hmiR⟩ := resize_spec hf _ ih hwf hrz
        obtain ⟨h1, h2, h3, h4, h5, h6, h7, h8⟩ := place_spec hf hwfR hok
        refine ⟨h1, ?_, ?_, ?_, ?_⟩
        · intro k₂
          rw [h2 k₂, hlvR k₂]
        · rw [h3, hcR, hlvR k]
        · intro _
          exact h7 hndR
        · rw [h5]
          exact Nat.le_of_lt hmiR
    · rw [if_neg hnr] at hok
      obtain ⟨h1, h2, h3, h4, h5, h6, h7, h8⟩ := place_spec hf hwf hok
      exact ⟨h1, h2, h3, h7, Nat.le_of_eq h5.symm⟩

/-- The specification of `ht.h`'s `remove`: it erases exactly the given key
from the logical map, decrements `count_` iff the key was live, leaves
`used_`, the capacity index and the slot occupancy pattern unchanged, and
is a no-op when the key is not live. -/
theorem remove_spec (hf : K → Nat) {s : HashTable K V} (hwf : WF hf s) (k : K) :
    WF hf (s.remove hf k) ∧
    (∀ k₂, (s.remove hf k).liveVal k₂ = if k₂ = k then none else s.liveVal k₂) ∧
    (s.remove hf k).count + (if (s.liveVal k).isNone then 0 else 1) = s.count ∧
    (s.remove hf k).used = s.used ∧ (s.remove hf k).mIndex = s.mIndex ∧
    (s.liveVal k = none → s.remove hf k = s) := by
  cases hp : s.probe hf k with
  | none =>
    have hrm : s.remove hf k = s := by
      unfold HashTable.remove HashTable.internalFind
      simp only [hp]
    have hlvk : s.liveVal k = none := by
      apply lookupKV_eq_none_of_not_mem
      intro v hm
      obtain ⟨i, _, hl⟩ := liveAt_of_mem_liveEntries _ _ _ hm
      have := probe_of_live hf hwf hl
      rw [hp] at this
      exact Option.noConfusion this
    rw [hrm]
    refine ⟨hwf, ?_, ?_, rfl, rfl, fun _ => rfl⟩
    · intro k₂
      by_cases hk₂ : k₂ = k
      · rw [if_pos hk₂, hk₂, hlvk]
      · rw [if_neg hk₂]
    · rw [hlvk]
      simp
  | some loc =>
    cases hgd : s.table.getD loc none with
    | none =>
      have hrm : s.remove hf k = s := by
        unfold HashTable.remove HashTable.internalFind
        simp only [hp, hgd]
      have hlvk : s.liveVal k = none :=
        lookupKV_eq_none_of_not_mem _ k (no_live_of_empty_probed hf hwf hp hgd)
      rw [hrm]
      refine ⟨hwf, ?_, ?_, rfl, rfl, fun _ => rfl⟩
      · intro k₂
        by_cases hk₂ : k₂ = k
        · rw [if_pos hk₂, hk₂, hlvk]
        · rw [if_neg hk₂]
      · rw [hlvk]
        simp
    | some it =>
      have hloc_lt : loc < s.table.length := probe_lt_length hf hwf.len_eq hp
      obtain ⟨ik, iv, idel⟩ := it
      rcases probe_some_spec hf hp with hn | ⟨it2, hit2, hdel2, hkey2⟩
      · rw [hgd] at hn; exact absurd hn (by simp)
      rw [hgd] at hit2
      have hit2eq : it2 = ⟨ik, iv, idel⟩ := by cases hit2; rfl
      subst hit2eq
      simp only at hdel2 hkey2
      subst hdel2
      subst hkey2
      have hrm : s.remove hf ik =
          { table := s.table.set loc (some ⟨ik, iv, true⟩), mIndex := s.mIndex,
            count := s.count - 1, used := s.used } := by
        unfold HashTable.remove HashTable.internalFind
        simp only [hp, hgd]
      have hlive : liveAt s.table loc ik iv := hgd
      have hlvk : s.liveVal ik = some iv :=
        lookupKV_eq_some_of_mem_nodup _ ik iv hwf.nodup
          (mem_liveEntries_of_liveAt _ _ _ _ hlive)
      obtain ⟨hsub, hlen⟩ := keys_liveEntries_set_tomb s.table loc ik iv hgd
      have hcount1 : 1 ≤ s.count := by
        rw [hwf.count_eq]
        omega
      rw [hrm]
      refine ⟨⟨hwf.mIndex_lt, by simpa using hwf.len_eq, ?_, ?_, ?_, ?_⟩,
        ?_, ?_, rfl, rfl, ?_⟩
      · show s.count - 1 = (liveEntries (s.table.set loc (some ⟨ik, iv, true⟩))).length
        rw [hwf.count_eq] at hcount1 ⊢
        omega
      · show s.used = _
        rw [occupiedCount_set_some s.table loc _ _ hgd]
        exact hwf.used_eq
      · exact hsub.nodup hwf.nodup
      · rw [reachOk_iff]
        intro i it' hgd' hdel' j hj
        by_cases hiloc : i = loc
        · subst hiloc
          rw [getD_set_self _ s.table i _ hloc_lt] at hgd'
          have : it' = ⟨ik, iv, true⟩ := by cases hgd'; rfl
          rw [this] at hdel'
          exact absurd hdel' (by simp)
        · rw [getD_set_ne _ s.table loc i _ (fun h => hiloc h.symm)] at hgd'
          have := (reachOk_iff hf s.table (capAt s.mIndex)).mp hwf.reach
            i it' hgd' hdel' j hj
          exact isSome_getD_set_some _ _ _ _ this
      · intro k₂
        by_cases hk₂ : k₂ = ik
        · rw [if_pos hk₂, hk₂]
          exact lookup_liveEntries_set_tomb_self s.table loc ik iv hwf.nodup hgd
        · rw [if_neg hk₂]
          exact lookup_liveEntries_set_tomb_other s.table loc ik iv hgd k₂ hk₂
      · rw [hlvk]
        show s.count - 1 + 1 = s.count
        omega
      · intro h
        rw [hlvk] at h
        exact absurd h (by simp)

/-- `HashTable.insert` (the fuelled `insertFuel` at its standard fuel)
satisfies the insert contract. -/
theorem insert_spec (hf : K → Nat) (α : ℚ) :
    InsContract hf (fun (s : HashTable K V) (p : K × V) => s.insert hf α p) :=
  fun a a' k v hw h =>
    insertFuel_spec hf α (capCount - a.mIndex) a a' k v hw h

theorem runOps_wf (hf : K → Nat) (α : ℚ) :
    ∀ (ops : List (Op K V)) (s s' : HashTable K V),
      WF hf s → runOps hf α s ops = .ok s' → WF hf s' := by
  intro ops
  induction ops with
  | nil =>
    intro s s' hwf hok
    simp only [runOps, Except.ok.injEq] at hok
    subst hok
    exact hwf
  | cons op rest ih =>
    intro s s' hwf hok
    match op with
    | .ins k v =>
      simp only [runOps] at hok
      cases hins : s.insert hf α (k, v) with
      | error e => rw [hins] at hok; exact absurd hok (by simp)
      | ok s₁ =>
        rw [hins] at hok
        exact ih s₁ s' (insert_spec hf α s s₁ k v hwf hins).1 hok
    | .rem k =>
      simp only [runOps] at hok
      exact ih _ s' (remove_spec hf hwf k).1 hok

theorem runOps_liveVal_frozen (hf : K → Nat) (α : ℚ) :
    ∀ (ops : List (Op K V)) (s s' : HashTable K V) (k : K),
      WF hf s → (∀ op ∈ ops, op.key ≠ k) → runOps hf α s ops = .ok s' →
      s'.liveVal k = s.liveVal k := by
  intro ops
  induction ops with
  | nil =>
    intro s s' k _ _ hok
    simp only [runOps, Except.ok.injEq] at hok
    subst hok
    rfl
  | cons op rest ih =>
    intro s s' k hwf hfr hok
    have hfr_hd : op.key ≠ k := hfr op (List.mem_cons_self _ _)
    have hfr_tl : ∀ op' ∈ rest, Op.key op' ≠ k :=
      fun op' hm => hfr op' (List.mem_cons_of_mem _ hm)
    match op with
    | .ins k' v =>
      simp only [runOps] at hok
      cases hins : s.insert hf α (k', v) with
      | error e => rw [hins] at hok; exact absurd hok (by simp)
      | ok s₁ =>
        rw [hins] at hok
        obtain ⟨hwf₁, hlv₁, _, _, _⟩ := insert_spec hf α s s₁ k' v hwf hins
        have hkne : ¬ k = k' := fun he => hfr_hd (by simp [Op.key, he])
        rw [ih s₁ s' k hwf₁ hfr_tl hok, hlv₁ k, if_neg hkne]
    | .rem k' =>
      simp only [runOps] at hok
      obtain ⟨hwf₁, hlv₁, _, _, _, _⟩ := remove_spec hf hwf k'
      have hkne : ¬ k = k' := fun he => hfr_hd (by simp [Op.key, he])
      rw [ih _ s' k hwf₁ hfr_tl hok, hlv₁ k, if_neg hkne]

theorem runOps_append (hf : K → Nat) (α : ℚ) :
    ∀ (l₁ l₂ : List (Op K V)) (s : HashTable K V),
      runOps hf α s (l₁ ++ l₂) =
        (match runOps hf α s l₁ with
          | .ok s₁ => runOps hf α s₁ l₂
          | .error e => .error e) := by
  intro l₁
  induction l₁ with
  | nil => intro l₂ s; simp [runOps]
  | cons op rest ih =>
    intro l₂ s
    match op with
    | .ins k v =>
      simp only [List.cons_append, runOps]
      cases s.insert hf α (k, v) with
      | error e => rfl
      | ok s₁ => exact ih l₂ s₁
    | .rem k =>
      simp only [List.cons_append, runOps]
      exact ih l₂ _

/-- C1: For all sequences of inserts, `find(k)` invoked after
`insert(k, v)`, with no intervening `remove(k)` (here: no later operation
on `k` at all — a later `insert(k, v')` would update the mapping to `v'`,
and operations on other keys are allowed, including removals), returns the
value `v`: the live entry stored for `k` stays reachable by re-probing from
`k`'s starting index. -/
theorem c1_round_trip (hf : K → Nat) (α : ℚ) (ops₁ ops₂ : List (Op K V))
    (k : K) (v : V) (s' : HashTable K V)
    (hfrozen : ∀ op ∈ ops₂, op.key ≠ k)
    (hrun : runOps hf α (HashTable.init K V) (ops₁ ++ Op.ins k v :: ops₂) = .ok s') :
    s'.findVal hf k = some v := by
  rw [runOps_append hf α ops₁ (Op.ins k v :: ops₂) (HashTable.init K V)] at hrun
  cases h₁ : runOps hf α (HashTable.init K V) ops₁ with
  | error e => rw [h₁] at hrun; exact absurd hrun (by simp)
  | ok s₁ =>
    rw [h₁] at hrun
    have hwf₁ : WF hf s₁ := runOps_wf hf α ops₁ _ s₁ (wf_init hf) h₁
    simp only [runOps] at hrun
    cases h₂ : s₁.insert hf α (k, v) with
    | error e => rw [h₂] at hrun; exact absurd hrun (by simp)
    | ok s₂ =>
      rw [h₂] at hrun
      obtain ⟨hwf₂, hlv₂, _, _, _⟩ := insert_spec hf α s₁ s₂ k v hwf₁ h₂
      have hwf' : WF hf s' := runOps_wf hf α ops₂ s₂ s' hwf₂ hrun
      rw [findVal_eq_liveVal hf hwf' k,
        runOps_liveVal_frozen hf α ops₂ s₂ s' k hwf₂ hfrozen hrun,
        hlv₂ k, if_pos rfl]

/-- Witness for C1 at a concrete run: keys `0`, `3`, `14` (with the
identity hash, `14` collides with `3` modulo the initial capacity 11) and
a later removal of the colliding key. -/
theorem c1_round_trip_witness :
    HashTable.findVal (fun n => n)
      (getOk (runOps (fun n => n) (mkRat 2 5) (HashTable.init Nat Nat)
        ([Op.ins 0 10] ++ Op.ins 3 7 :: [Op.ins 14 9, Op.rem 14]))) 3 = some 7 :=
  c1_round_trip (fun n => n) (mkRat 2 5) [Op.ins 0 10] [Op.ins 14 9, Op.rem 14] 3 7 _
    (by decide) (by decide)

/-- C3: after a growth event (a `resize` whose rehash re-inserts with any
remaining fuel, as triggered by insert-driven load), every key that was
live before growth is still findable with its correct value — indeed
`find` is unchanged on *every* key — `size()` (the active count) is
unchanged across the growth, and tombstoned and empty slots are dropped by
the rehash (`used_` equals the live count afterwards). -/
theorem c3_growth_correct (hf : K → Nat) (α : ℚ) (fuel : Nat)
    (s s' : HashTable K V) (hwf : WF hf s)
    (hok : resizeWith (insertFuel hf α fuel) s = .ok s') :
    (∀ k, s'.findVal hf k = s.findVal hf k) ∧
    s'.size = s.size ∧ s'.used = s.size := by
  obtain ⟨hwfO, hlv, hc, hu, _, _⟩ :=
    resize_spec hf _ (insertFuel_spec hf α fuel) hwf hok
  refine ⟨?_, hc, hu⟩
  intro k
  rw [findVal_eq_liveVal hf hwfO k, findVal_eq_liveVal hf hwf k, hlv k]

/-- Witness for C3: growing a table that holds two live entries and one
tombstone; both live keys stay findable, `size()` is unchanged, and the
tombstone is dropped. -/
theorem c3_growth_correct_witness :
    ((getOk (resizeWith (insertFuel (fun n => n) (mkRat 2 5) 27)
        (getOk (runOps (fun n => n) (mkRat 2 5) (HashTable.init Nat Nat)
          [Op.ins 1 5, Op.ins 12 6, Op.ins 2 8, Op.rem 2])))).findVal (fun n => n) 12 =
      (getOk (runOps (fun n => n) (mkRat 2 5) (HashTable.init Nat Nat)
        [Op.ins 1 5, Op.ins 12 6, Op.ins 2 8, Op.rem 2])).findVal (fun n => n) 12) ∧
    (getOk (resizeWith (insertFuel (fun n => n) (mkRat 2 5) 27)
        (getOk (runOps (fun n => n) (mkRat 2 5) (HashTable.init Nat Nat)
          [Op.ins 1 5, Op.ins 12 6, Op.ins 2 8, Op.rem 2])))).used = 2 := by
  have h := c3_growth_correct (fun n => n) (mkRat 2 5) 27
    (getOk (runOps (fun n => n) (mkRat 2 5) (HashTable.init Nat Nat)
      [Op.ins 1 5, Op.ins 12 6, Op.ins 2 8, Op.rem 2]))
    (getOk (resizeWith (insertFuel (fun n => n) (mkRat 2 5) 27)
      (getOk (runOps (fun n => n) (mkRat 2 5) (HashTable.init Nat Nat)
        [Op.ins 1 5, Op.ins 12 6, Op.ins 2 8, Op.rem 2]))))
    ⟨by decide, by decide, by decide, by decide, by decide, by decide⟩
    (by decide)
  exact ⟨h.1 12, by rw [h.2.2]; decide⟩

/-- C4: after `remove(k)` on a table where `k` is live, `find(k)` returns
absent, `size()` decreases by exactly one, and `usedCount` is unchanged;
`remove(k)` when `k` is not present (never inserted or already removed) is
a no-op that leaves the table (hence `size()`) unchanged — not an error. -/
theorem c4_remove_semantics (hf : K → Nat) (s : HashTable K V)
    (hwf : WF hf s) (k : K) :
    (∀ v, s.findVal hf k = some v →
      (s.remove hf k).findVal hf k = none ∧
      (s.remove hf k).size + 1 = s.size ∧
      (s.remove hf k).used = s.used) ∧
    (s.findVal hf k = none → s.remove hf k = s) := by
  obtain ⟨hwf', hlv, hc, hu, _, hnoop⟩ := remove_spec hf hwf k
  constructor
  · intro v hv
    rw [findVal_eq_liveVal hf hwf k] at hv
    refine ⟨?_, ?_, hu⟩
    · rw [findVal_eq_liveVal hf hwf' k, hlv k, if_pos rfl]
    · show (s.remove hf k).count + 1 = s.count
      rw [hv] at hc
      simpa using hc
  · intro h
    rw [findVal_eq_liveVal hf hwf k] at h
    exact hnoop h

/-- Witness for C4: removing the live key `1` (stored value `5`) and the
never-inserted key `9` from a concrete two-entry table. -/
theorem c4_remove_semantics_witness :
    ((getOk (runOps (fun n => n) (mkRat 2 5) (HashTable.init Nat Nat)
        [Op.ins 1 5, Op.ins 2 6])).remove (fun n => n) 1).findVal (fun n => n) 1 = none ∧
    ((getOk (runOps (fun n => n) (mkRat 2 5) (HashTable.init Nat Nat)
        [Op.ins 1 5, Op.ins 2 6])).remove (fun n => n) 1).size + 1 =
      (getOk (runOps (fun n => n) (mkRat 2 5) (HashTable.init Nat Nat)
        [Op.ins 1 5, Op.ins 2 6])).size ∧
    (getOk (runOps (fun n => n) (mkRat 2 5) (HashTable.init Nat Nat)
        [Op.ins 1 5, Op.ins 2 6])).remove (fun n => n) 9 =
      getOk (runOps (fun n => n) (mkRat 2 5) (HashTable.init Nat Nat)
        [Op.ins 1 5, Op.ins 2 6]) := by
  have h1 := c4_remove_semantics (fun n => n)
    (getOk (runOps (fun n => n) (mkRat 2 5) (HashTable.init Nat Nat)
      [Op.ins 1 5, Op.ins 2 6]))
    ⟨by decide, by decide, by decide, by decide, by decide, by decide⟩ 1
  have h9 := c4_remove_semantics (fun n => n)
    (getOk (runOps (fun n => n) (mkRat 2 5) (HashTable.init Nat Nat)
      [Op.ins 1 5, Op.ins 2 6]))
    ⟨by decide, by decide, by decide, by decide, by decide, by decide⟩ 9
  obtain ⟨ha, hb, _⟩ := h1.1 5 (by decide)
  exact ⟨ha, hb, h9.2 (by decide)⟩

/-- With `resizeAlpha = 0` the load check fires on every insert. -/
theorem needResize_zero (s : HashTable K V) : s.needResize 0 = true := by
  rw [needResize_eq_div, decide_eq_true_eq]
  positivity

/-- One unfolding of `insertFuel` when the entry load check fires and the
resize fails: the error propagates. -/
theorem insertFuel_resize_error (hf : K → Nat) (α : ℚ) (fuel : Nat)
    (s : HashTable K V) (p : K × V) (h : s.needResize α = true)
    (e : HTErr × HashTable K V)
    (hres : resizeWith (insertFuel hf α fuel) s = .error e) :
    insertFuel hf α (fuel + 1) s p = .error e := by
  unfold insertFuel
  rw [h, hres]
  simp

/-- The cons equation of `liveEntries` at a live slot (stated for a
variable tail, so that rewriting with it never forces a long table). -/
theorem liveEntries_cons_live (it : HashItem K V) (rest : List (Slot K V))
    (hdel : it.deleted = false) :
    liveEntries (some it :: rest) = (it.key, it.val) :: liveEntries rest := by
  rw [show liveEntries (some it :: rest) =
      if it.deleted then liveEntries rest
      else (it.key, it.val) :: liveEntries rest from rfl]
  rw [hdel]
  simp

/-- The cons equation of `occupiedCount` at an occupied slot. -/
theorem occupiedCount_cons_some (it : HashItem K V) (rest : List (Slot K V)) :
    occupiedCount (some it :: rest) = occupiedCount rest + 1 := rfl

/-- The step of the rehash loop at a live slot whose re-insert fails:
the error propagates out of `refill` (stated for a variable tail). -/
theorem refill_cons_live_error
    (ins : HashTable K V → K × V → Except (HTErr × HashTable K V) (HashTable K V))
    (s : HashTable K V) (it : HashItem K V) (rest : List (Slot K V))
    (hdel : it.deleted = false) (e : HTErr × HashTable K V)
    (hins : ins s (it.key, it.val) = .error e) :
    refill ins s (some it :: rest) = .error e := by
  unfold refill
  rw [hdel, hins]
  simp

/-- The C5 counterexample's pre-call state satisfies the structural
invariant. -/
theorem c5state_wf : WF (fun n : Nat => n) c5state := by
  have hlive : liveEntries ((some ⟨0, 0, false⟩ : Slot Nat Nat) ::
      List.replicate (capAt 26 - 1) none) = [(0, 0)] := by
    rw [liveEntries_cons_live ⟨0, 0, false⟩ _ rfl, liveEntries_replicate]
  have hocc : occupiedCount ((some ⟨0, 0, false⟩ : Slot Nat Nat) ::
      List.replicate (capAt 26 - 1) none) = 1 := by
    rw [occupiedCount_cons_some, occupiedCount_replicate]
  refine ⟨by decide, ?_, ?_, ?_, ?_, ?_⟩
  · show ((some ⟨0, 0, false⟩ : Slot Nat Nat) ::
        List.replicate (capAt 26 - 1) none).length = capAt 26
    rw [List.length_cons, List.length_replicate]
    decide
  · show 1 = (liveEntries ((some ⟨0, 0, false⟩ : Slot Nat Nat) ::
        List.replicate (capAt 26 - 1) none)).length
    rw [hlive]
    rfl
  · show 1 = occupiedCount ((some ⟨0, 0, false⟩ : Slot Nat Nat) ::
        List.replicate (capAt 26 - 1) none)
    rw [hocc]
  · show ((liveEntries ((some ⟨0, 0, false⟩ : Slot Nat Nat) ::
        List.replicate (capAt 26 - 1) none)).map Prod.fst).Nodup
    rw [hlive]
    simp
  · show reachOk (fun n : Nat => n)
        ((some ⟨0, 0, false⟩ : Slot Nat Nat) ::
          List.replicate (capAt 26 - 1) none) (capAt 26) = true
    rw [reachOk_iff]
    intro i it hgd hdel j hj
    cases i with
    | zero =>
      rw [List.getD_cons_zero] at hgd
      have hit : it = ⟨0, 0, false⟩ := by cases hgd; rfl
      subst hit
      have h26 : capAt 26 = 842879579 := by decide
      simp only [chainIdx, h26] at hj
      exact absurd hj (by omega)
    | succ i' =>
      rw [List.getD_cons_succ, getD_replicate_none] at hgd
      exact Option.noConfusion hgd

/-- C5 counterexample: a CapacityExhausted failure arising from a *nested*
resize leaves the table modified.  `resize` rehashes the old items through
the public `insert`, which re-checks the load factor; with
`resizeAlpha = 0` (the constructor accepts any `double`) a well-formed
table at the second-to-last rung holding one live item grows to the last
rung, and the rehash of that item immediately demands a further rung, so
the CapacityExhausted error propagates mid-rehash: the state it carries
has `mIndex_` (capacityIndex) advanced to 27, `count_` (activeCount)
reset to 0 and slot 0 emptied — not the pre-call table, refuting the
claim's unconditional "left exactly as it was before the call". -/
theorem c5_capacity_exhausted_counterexample :
    WF (fun n : Nat => n) c5state ∧
    HashTable.insert (fun n : Nat => n) 0 c5state (1, 1) =
      .error (.noMoreCaps, c5state') ∧
    c5state'.mIndex ≠ c5state.mIndex ∧
    c5state'.count ≠ c5state.count ∧
    c5state'.table.getD 0 none ≠ c5state.table.getD 0 none := by
  have hneedC : c5state.needResize 0 = true := needResize_zero c5state
  have hneedC' : c5state'.needResize 0 = true := needResize_zero c5state'
  have hres0 : resizeWith (insertFuel (fun n : Nat => n) 0 0) c5state' =
      .error (.noMoreCaps, c5state') := by
    unfold resizeWith
    rw [if_pos (show capCount ≤ c5state'.mIndex + 1 by decide)]
  have hinner : insertFuel (fun n : Nat => n) 0 1 c5state' (0, 0) =
      .error (.noMoreCaps, c5state') := by
    show insertFuel (fun n : Nat => n) 0 (0 + 1) c5state' (0, 0) =
      .error (.noMoreCaps, c5state')
    exact insertFuel_resize_error (fun n : Nat => n) 0 0 c5state' (0, 0)
      hneedC' _ hres0
  have hres : resizeWith (insertFuel (fun n : Nat => n) 0 1) c5state =
      .error (.noMoreCaps, c5state') := by
    unfold resizeWith
    rw [if_neg (show ¬ (capCount ≤ c5state.mIndex + 1) by decide)]
    show refill (insertFuel (fun n : Nat => n) 0 1) c5state'
        ((some ⟨0, 0, false⟩ : Slot Nat Nat) ::
          List.replicate (capAt 26 - 1) none) =
      .error (.noMoreCaps, c5state')
    exact refill_cons_live_error _ _ _ _ rfl _ hinner
  have hmain : HashTable.insert (fun n : Nat => n) 0 c5state (1, 1) =
      .error (.noMoreCaps, c5state') := by
    unfold HashTable.insert
    show insertFuel (fun n : Nat => n) 0 (1 + 1) c5state (1, 1) =
      .error (.noMoreCaps, c5state')
    exact insertFuel_resize_error (fun n : Nat => n) 0 1 c5state (1, 1)
      hneedC _ hres
  refine ⟨c5state_wf, hmain, by decide, by decide, ?_⟩
  rw [show c5state'.table.getD 0 none = none from getD_replicate_none _ _]
  rw [show c5state.table.getD 0 none = some ⟨0, 0, false⟩ from rfl]
  simp

/-- C5 amended (the direct path): if an insert's own entry load check
fires with the capacity ladder already at its last rung, the insert fails
with CapacityExhausted (`"No more prime capacities"`); the error
propagates to the caller and the table it carries is exactly the pre-call
state — on this path the ladder check precedes every mutation of
`resize`, so all slots, `count_` (activeCount), `used_` (usedCount) and
`mIndex_` (capacityIndex) are unchanged.  (The unconditional claim fails
when the exhaustion arises from a nested resize mid-rehash; see the C5
counterexample above.) -/
theorem c5_capacity_exhausted_unchanged (hf : K → Nat) (α : ℚ)
    (s : HashTable K V) (p : K × V)
    (hneed : s.needResize α = true) (hend : capCount ≤ s.mIndex + 1) :
    s.insert hf α p = .error (.noMoreCaps, s) := by
  unfold HashTable.insert
  cases hfuel : capCount - s.mIndex with
  | zero =>
    unfold insertFuel
    simp [hneed]
  | succ f =>
    unfold insertFuel
    simp only [hneed, if_true]
    unfold resizeWith
    simp [hend]

/-- Witness for C5: a table whose capacity index sits at the last ladder
rung and whose load requires growth; the insert returns the
CapacityExhausted error carrying the unchanged state. -/
theorem c5_capacity_exhausted_unchanged_witness :
    HashTable.insert (fun n => n) (mkRat 2 5)
      ({ table := List.replicate 11 (none : Slot Nat Nat), mIndex := 27,
         count := 0, used := 10 } : HashTable Nat Nat) (3, 9) =
      .error (.noMoreCaps,
        { table := List.replicate 11 (none : Slot Nat Nat), mIndex := 27,
          count := 0, used := 10 }) :=
  c5_capacity_exhausted_unchanged (fun n => n) (mkRat 2 5)
    ({ table := List.replicate 11 (none : Slot Nat Nat), mIndex := 27,
       count := 0, used := 10 } : HashTable Nat Nat) (3, 9)
    (by decide) (by decide)

/-- C10: `insert` never writes into a tombstoned slot.  The probe used by
`insert` stops only at an empty slot or at a live slot with an equal key
(first conjunct, for any probe result); hence, on an insert that triggers
no growth, every tombstoned slot's contents are left untouched (second
conjunct), and inserting a key that is not live — e.g. any key colliding
through a removed key's slot, or re-inserting the removed key itself —
occupies a fresh empty slot and increments `used_` (third conjunct).
Tombstoned slots are reclaimed only during growth (see C3: after a resize
`used_` drops back to the live count). -/
theorem c10_insert_skips_tombstones (hf : K → Nat) (α : ℚ)
    (s s' : HashTable K V) (k : K) (v : V) (hwf : WF hf s)
    (hnr : s.needResize α = false)
    (hok : s.insert hf α (k, v) = .ok s') :
    (∀ loc, s.probe hf k = some loc →
      s.table.getD loc none = none ∨
      ∃ it, s.table.getD loc none = some it ∧ it.deleted = false ∧ it.key = k) ∧
    (∀ i it, s.table.getD i none = some it → it.deleted = true →
      s'.table.getD i none = some it) ∧
    (s.findVal hf k = none → s'.used = s.used + 1) := by
  have hplace : s.place hf (k, v) = .ok s' := by
    unfold HashTable.insert at hok
    cases hfuel : capCount - s.mIndex with
    | zero =>
      rw [hfuel] at hok
      unfold insertFuel at hok
      simpa [hnr] using hok
    | succ f =>
      rw [hfuel] at hok
      unfold insertFuel at hok
      simpa [hnr] using hok
  obtain ⟨_, _, _, h4, _, _, _, h8⟩ := place_spec hf hwf hplace
  refine ⟨fun loc hp => probe_some_spec hf hp, h8, ?_⟩
  intro hfind
  rw [findVal_eq_liveVal hf hwf k] at hfind
  rw [h4, hfind]
  simp

/-- Witness for C10: with identity hashing, after `insert(3,7)`,
`remove(3)` the slot 3 holds a tombstone; inserting the colliding key `14`
(14 ≡ 3 mod 11) leaves the tombstone untouched and takes a fresh slot,
incrementing `used_` from 2 to 3. -/
theorem c10_insert_skips_tombstones_witness :
    (getOk (HashTable.insert (fun n => n) (mkRat 2 5)
        (getOk (runOps (fun n => n) (mkRat 2 5) (HashTable.init Nat Nat)
          [Op.ins 3 7, Op.ins 4 1, Op.rem 3])) (14, 9))).table.getD 3 none =
      some ⟨3, 7, true⟩ ∧
    (getOk (HashTable.insert (fun n => n) (mkRat 2 5)
        (getOk (runOps (fun n => n) (mkRat 2 5) (HashTable.init Nat Nat)
          [Op.ins 3 7, Op.ins 4 1, Op.rem 3])) (14, 9))).used =
      (getOk (runOps (fun n => n) (mkRat 2 5) (HashTable.init Nat Nat)
        [Op.ins 3 7, Op.ins 4 1, Op.rem 3])).used + 1 := by
  have h := c10_insert_skips_tombstones (fun n => n) (mkRat 2 5)
    (getOk (runOps (fun n => n) (mkRat 2 5) (HashTable.init Nat Nat)
      [Op.ins 3 7, Op.ins 4 1, Op.rem 3]))
    (getOk (HashTable.insert (fun n => n) (mkRat 2 5)
      (getOk (runOps (fun n => n) (mkRat 2 5) (HashTable.init Nat Nat)
        [Op.ins 3 7, Op.ins 4 1, Op.rem 3])) (14, 9)))
    14 9
    ⟨by decide, by decide, by decide, by decide, by decide, by decide⟩
    (by decide) (by decide)
  exact ⟨h.2.1 3 ⟨3, 7, true⟩ (by decide) (by decide), h.2.2 (by decide)⟩

/-- C6: for every capacity `c` on the ladder and every key (equivalently,
every secondary hash value), `DoubleHashProber::init` selects as modulus
the largest entry of its fixed ascending prime table that is strictly
below `c`, and computes `dhstep_ = mod - (h2(key) % mod)`, which always
lies in `[1, mod]` — the stride is never zero. -/
theorem c6_double_hash_step {K₀ : Type} (h2 : K₀ → Nat) (key : K₀)
    (start i : Nat) (hi : i < capCount) :
    (DoubleHashProber.init h2 start (capAt i) key).dhstep =
      dhMod (capAt i) - h2 key % dhMod (capAt i) ∧
    dhMod (capAt i) ∈ DOUBLE_HASH_MOD_VALUES ∧
    dhMod (capAt i) < capAt i ∧
    (∀ x ∈ DOUBLE_HASH_MOD_VALUES, x < capAt i → x ≤ dhMod (capAt i)) ∧
    1 ≤ (DoubleHashProber.init h2 start (capAt i) key).dhstep ∧
    (DoubleHashProber.init h2 start (capAt i) key).dhstep ≤ dhMod (capAt i) := by
  have hfin : ∀ j, j < capCount →
      dhMod (capAt j) ∈ DOUBLE_HASH_MOD_VALUES ∧ dhMod (capAt j) < capAt j ∧
      (∀ x ∈ DOUBLE_HASH_MOD_VALUES, x < capAt j → x ≤ dhMod (capAt j)) ∧
      0 < dhMod (capAt j) := by decide
  obtain ⟨h1, h2m, h3, hpos⟩ := hfin i hi
  have hmod : h2 key % dhMod (capAt i) < dhMod (capAt i) := Nat.mod_lt _ hpos
  refine ⟨rfl, h1, h2m, h3, ?_, ?_⟩
  · show 1 ≤ dhMod (capAt i) - h2 key % dhMod (capAt i)
    omega
  · show dhMod (capAt i) - h2 key % dhMod (capAt i) ≤ dhMod (capAt i)
    omega

/-- Witness for C6 at the smallest capacity (11) with secondary hash value
5: the chosen modulus is 7 (the largest table entry below 11) and the
stride is `7 - 5 % 7 = 2`. -/
theorem c6_double_hash_step_witness :
    (DoubleHashProber.init (fun n : Nat => n) 0 (capAt 0) 5).dhstep = 2 ∧
    dhMod (capAt 0) < capAt 0 ∧
    dhMod (capAt 0) ∈ DOUBLE_HASH_MOD_VALUES := by
  have h := c6_double_hash_step (fun n : Nat => n) 5 0 0 (by decide)
  refine ⟨?_, h.2.2.1, h.2.1⟩
  rw [h.1]
  decide

/-- C8 counterexample: a specialized prober's `next`, invoked on a state
that has already signalled exhaustion (`numProbes_ = m_ = 3`; every
further call keeps returning the sentinel), yields `npos` (modelled
`none`) again with unchanged state — a silent sentinel result, not a fatal
ProberMisuse error.  The claim is false for the specialized probers: in
`ht.h` only the base `Prober::next()` throws, while `LinearProber::next`
and `DoubleHashProber::next` return `npos` forever once exhausted. -/
theorem c8_prober_misuse_counterexample :
    LinearProber.next ⟨0, 3, 3⟩ = (none, ⟨0, 3, 3⟩) ∧
    DoubleHashProber.next ⟨⟨0, 3, 3⟩, 2⟩ = (none, ⟨⟨0, 3, 3⟩, 2⟩) :=
  ⟨rfl, rfl⟩

/-- C8 amended: invoking the base (unspecialized) prober's `next` is a
fatal ProberMisuse error (`std::logic_error`); a specialized prober's
`next` invoked once it has reached exhaustion returns the `npos` sentinel
with unchanged state — an idempotent exhaustion signal, not an error. -/
theorem c8_prober_misuse_amended (p : ProberState) (q : DHProberState)
    (hp : p.m ≤ p.numProbes) (hq : q.base.m ≤ q.base.numProbes) :
    Prober.next p = .error .misuse ∧
    LinearProber.next p = (none, p) ∧
    DoubleHashProber.next q = (none, q) := by
  refine ⟨rfl, ?_, ?_⟩
  · unfold LinearProber.next
    rw [if_pos hp]
  · unfold DoubleHashProber.next
    rw [if_pos hq]

/-- Witness for C8 amended, at the exhausted states of the counterexample. -/
theorem c8_prober_misuse_amended_witness :
    Prober.next ⟨0, 3, 3⟩ = .error .misuse ∧
    LinearProber.next ⟨0, 3, 3⟩ = (none, ⟨0, 3, 3⟩) ∧
    DoubleHashProber.next ⟨⟨0, 3, 3⟩, 2⟩ = (none, ⟨⟨0, 3, 3⟩, 2⟩) :=
  c8_prober_misuse_amended ⟨0, 3, 3⟩ ⟨⟨0, 3, 3⟩, 2⟩ (by decide) (by decide)

/-- C2 counterexample: with `maxLoadFactor α = 1/23` — a legal
configuration, the constructor accepts any `resizeAlpha` — the very first
insert on a fresh table triggers growth (1/11 ≥ α), rehashes nothing,
grows to capacity 23 and then places the entry; the insert returns with
`used_/capacity = 1/23 ≥ α`, so the claimed bound
`usedCount / capacity < maxLoadFactor` fails immediately after an insert
returns. -/
theorem c2_load_factor_counterexample :
    HashTable.insert (fun n => n) (mkRat 1 23) (HashTable.init Nat Nat) (0, 0) =
      .ok (getOk (HashTable.insert (fun n => n) (mkRat 1 23)
        (HashTable.init Nat Nat) (0, 0))) ∧
    ¬ (((getOk (HashTable.insert (fun n => n) (mkRat 1 23)
          (HashTable.init Nat Nat) (0, 0))).used : ℚ) /
        ((getOk (HashTable.insert (fun n => n) (mkRat 1 23)
          (HashTable.init Nat Nat) (0, 0))).table.length : ℚ) < mkRat 1 23) := by
  constructor
  · decide
  · rw [← mkRat_cast_div]
    decide

/-- Load-bound preservation for one successful insert, for any
`α ≥ 1/12` (the reciprocal of the smallest gap between ladder rungs; the
default 0.4 qualifies). -/
theorem insert_load_bound (hf : K → Nat) (α : ℚ) (hα : mkRat 1 12 ≤ α)
    (fuel : Nat) (s s' : HashTable K V) (p : K × V) (hwf : WF hf s)
    (hload : (s.used : ℚ) < α * (s.table.length : ℚ))
    (hok : insertFuel hf α fuel s p = .ok s') :
    (s'.used : ℚ) < α * (s'.table.length : ℚ) := by
  have hα12 : 1 ≤ 12 * α := by
    have h112 : (mkRat 1 12 : ℚ) = 1 / 12 := by
      rw [Rat.mkRat_eq_divInt, Rat.divInt_eq_div]
      norm_num
    rw [h112] at hα
    linarith
  have hαpos : 0 < α := by linarith
  obtain ⟨k, v⟩ := p
  by_cases hnr : s.needResize α = true
  · cases fuel with
    | zero =>
      unfold insertFuel at hok
      rw [if_pos hnr] at hok
      exact absurd hok (by simp)
    | succ f =>
      unfold insertFuel at hok
      rw [if_pos hnr] at hok
      cases hrz : resizeWith (insertFuel hf α f) s with
      | error e => rw [hrz] at hok; exact absurd hok (by simp)
      | ok sR =>
        rw [hrz] at hok
        obtain ⟨hwfR, _, hcR, husR, _, hmiR⟩ :=
          resize_spec hf _ (insertFuel_spec hf α f) hwf hrz
        obtain ⟨hwf', _, _, h4, h5, h6, _, _⟩ := place_spec hf hwfR hok
        have hcount_le : s.count ≤ s.used := by
          rw [hwf.count_eq, hwf.used_eq]
          exact liveEntries_length_le_occupiedCount _
        have hused' : s'.used ≤ s.used + 1 := by
          have hite : (if (sR.liveVal k).isNone then 1 else 0) ≤ 1 := by
            by_cases hh : (sR.liveVal k).isNone <;> simp [hh]
          rw [h4, husR]
          omega
        have hcapgap : capAt s.mIndex + 12 ≤ capAt sR.mIndex :=
          capAt_gap sR.mIndex hwfR.mIndex_lt s.mIndex hmiR
        have hlen' : s'.table.length = capAt sR.mIndex := by
          rw [← h5]
          exact hwf'.len_eq
        have h1 : (s'.used : ℚ) ≤ (s.used : ℚ) + 1 := by exact_mod_cast hused'
        have h2 : (s.used : ℚ) < α * (capAt s.mIndex : ℚ) := by
          rw [← hwf.len_eq] at hcapgap ⊢
          exact hload
        have h3 : (capAt s.mIndex : ℚ) + 12 ≤ (capAt sR.mIndex : ℚ) := by
          exact_mod_cast hcapgap
        have h4' : α * ((capAt s.mIndex : ℚ) + 12) ≤ α * (capAt sR.mIndex : ℚ) :=
          mul_le_mul_of_nonneg_left h3 (le_of_lt hαpos)
        have hring : α * ((capAt s.mIndex : ℚ) + 12) =
            α * (capAt s.mIndex : ℚ) + 12 * α := by ring
        rw [hlen']
        linarith
  · have hplace : s.place hf (k, v) = .ok s' := by
      cases fuel with
      | zero =>
        unfold insertFuel at hok
        simpa [hnr] using hok
      | succ f =>
        unfold insertFuel at hok
        simpa [hnr] using hok
    obtain ⟨hwf', _, _, h4, h5, h6, _, _⟩ := place_spec hf hwf hplace
    rw [needResize_eq_div] at hnr
    simp only [decide_eq_true_eq] at hnr
    have hlt : ((s.used : ℚ) + 1) / (s.table.length : ℚ) < α := not_le.mp hnr
    have hlen_pos : (0 : ℚ) < (s.table.length : ℚ) := by
      have := capAt_pos s.mIndex hwf.mIndex_lt
      rw [hwf.len_eq]
      exact_mod_cast this
    rw [div_lt_iff₀ hlen_pos] at hlt
    have hused' : s'.used ≤ s.used + 1 := by
      have hite : (if (s.liveVal k).isNone then 1 else 0) ≤ 1 := by
        by_cases hh : (s.liveVal k).isNone <;> simp [hh]
      rw [h4]
      omega
    have h1 : (s'.used : ℚ) ≤ (s.used : ℚ) + 1 := by exact_mod_cast hused'
    rw [h6]
    linarith

/-- Every state reachable through the public operations (for `α ≥ 1/12`)
is well-formed and keeps `used_` strictly below `α ·capacity`. -/
theorem reachable_wf_load (hf : K → Nat) (α : ℚ) (hα : mkRat 1 12 ≤ α) :
    ∀ s : HashTable K V, Reachable hf α s →
      WF hf s ∧ (s.used : ℚ) < α * (s.table.length : ℚ) := by
  have hα12 : 1 ≤ 12 * α := by
    have h112 : (mkRat 1 12 : ℚ) = 1 / 12 := by
      rw [Rat.mkRat_eq_divInt, Rat.divInt_eq_div]
      norm_num
    rw [h112] at hα
    linarith
  have hαpos : 0 < α := by linarith
  intro s hs
  induction hs with
  | init =>
    refine ⟨wf_init hf, ?_⟩
    show ((0 : Nat) : ℚ) <
      α * ((List.replicate (capAt 0) (none : Slot K V)).length : ℚ)
    rw [List.length_replicate]
    have hc : ((capAt 0 : Nat) : ℚ) = 11 := by norm_num [capAt, CAPACITIES]
    rw [hc]
    push_cast
    linarith
  | step_ins hs hok ih =>
    exact ⟨(insertFuel_spec hf α _ _ _ _ _ ih.1 hok).1,
      insert_load_bound hf α hα _ _ _ _ ih.1 ih.2 hok⟩
  | step_rem hs ih =>
    next s₀ k =>
      obtain ⟨hwf', _, _, hu, hmi, _⟩ := remove_spec hf ih.1 k
      refine ⟨hwf', ?_⟩
      have hlen : (s₀.remove hf k).table.length = s₀.table.length := by
        rw [hwf'.len_eq, hmi, ← ih.1.len_eq]
      rw [hu, hlen]
      exact ih.2

/-- C2 amended: the load-factor bound holds for every table state
reachable via the public operations *provided* `maxLoadFactor ≥ 1/12`
(which the default 0.4 satisfies): `usedCount / capacity < maxLoadFactor`
at every reachable state, in particular immediately after any `insert`
returns.  (The growth check does use `usedCount + 1`, the count after the
prospective insert — see `HashTable.needResize` — but for tiny `α` the
single capacity step is not enough to restore the bound, as the
counterexample at `α = 1/23` shows, so the restriction on `α` is
necessary.) -/
theorem c2_load_factor_amended (hf : K → Nat) (α : ℚ) (hα : mkRat 1 12 ≤ α)
    (s : HashTable K V) (hs : Reachable hf α s) :
    (s.used : ℚ) / (s.table.length : ℚ) < α := by
  obtain ⟨hwf, hload⟩ := reachable_wf_load hf α hα s hs
  have hlen_pos : (0 : ℚ) < (s.table.length : ℚ) := by
    have := capAt_pos s.mIndex hwf.mIndex_lt
    rw [hwf.len_eq]
    exact_mod_cast this
  rw [div_lt_iff₀ hlen_pos]
  linarith [hload]

/-- Witness for C2 amended: the state after one insert at the default
load factor 0.4. -/
theorem c2_load_factor_amended_witness :
    (((getOk (HashTable.insert (fun n => n) (mkRat 2 5)
        (HashTable.init Nat Nat) (1, 5))).used : ℚ) /
      ((getOk (HashTable.insert (fun n => n) (mkRat 2 5)
        (HashTable.init Nat Nat) (1, 5))).table.length : ℚ)) < mkRat 2 5 :=
  c2_load_factor_amended (fun n => n) (mkRat 2 5) (by decide)
    (getOk (HashTable.insert (fun n => n) (mkRat 2 5)
      (HashTable.init Nat Nat) (1, 5)))
    (@Reachable.step_ins Nat Nat _ (fun n => n) (mkRat 2 5)
      (HashTable.init Nat Nat)
      (getOk (HashTable.insert (fun n => n) (mkRat 2 5)
        (HashTable.init Nat Nat) (1, 5)))
      (1, 5) Reachable.init (by decide))

/-!
  ## C7: comparing the two headers
-/

/-- The two headers' `internalFind` agree: the probe stops only at empty
slots or live matches, so the unnamed header's extra `!p->deleted` check
never fires. -/
theorem internalFindB_eq (hf : K → Nat) (s : HashTable K V) (k : K) :
    s.internalFindB hf k = s.internalFind hf k := by
  unfold HashTable.internalFindB HashTable.internalFind
  cases hp : s.probe hf k with
  | none => rfl
  | some loc =>
    cases hgd : s.table.getD loc none with
    | none => simp only [hgd]
    | some it =>
      rcases probe_some_spec hf hp with hn | ⟨it2, hit2, hdel2, _⟩
      · rw [hgd] at hn; exact absurd hn (by simp)
      · rw [hgd] at hit2
        have heq : it2 = it := by cases hit2; rfl
        subst heq
        simp only [hgd, hdel2, Bool.false_eq_true, if_false]

/-- Destructing a successful `internalFind`. -/
theorem internalFind_some (hf : K → Nat) {s : HashTable K V} {k : K}
    {loc : Nat} {it : HashItem K V}
    (h : s.internalFind hf k = some (loc, it)) :
    s.probe hf k = some loc ∧ s.table.getD loc none = some it ∧
    it.deleted = false := by
  have hmain : s.probe hf k = some loc ∧ s.table.getD loc none = some it := by
    unfold HashTable.internalFind at h
    cases hp : s.probe hf k with
    | none =>
      simp only [hp] at h
      exact absurd h (by simp)
    | some loc' =>
      simp only [hp] at h
      cases hgd : s.table.getD loc' none with
      | none =>
        simp only [hgd] at h
        exact absurd h (by simp)
      | some it' =>
        simp only [hgd, Option.some_inj, Prod.mk.injEq] at h
        obtain ⟨h1, h2⟩ := h
        subst h1
        subst h2
        exact ⟨rfl, hgd⟩
  obtain ⟨hp, hgd⟩ := hmain
  rcases probe_some_spec hf hp with hn | ⟨it2, hit2, hdel2, _⟩
  · rw [hgd] at hn; exact absurd hn (by simp)
  · rw [hgd] at hit2
    have heq : it2 = it := by cases hit2; rfl
    subst heq
    exact ⟨hp, hgd, hdel2⟩

/-- C7 counterexample: twelve distinct inserts at `alpha = 12/11`.  In
`ht.h` the twelfth insert sees `(used_+1)/size = 12/11 ≥ alpha`, grows to
capacity 23 and succeeds; in the unnamed header the check `used_/size =
11/11 < 12/11` does not fire, the probe scans the full table without an
empty slot and the insert throws `"HashTable full"`.  The same sequence of
public operations thus yields different results/errors — the two headers
are not behaviorally equivalent. -/
theorem c7_equivalence_counterexample :
    isOk (runOps (fun n => n) (mkRat 12 11) (HashTable.init Nat Nat)
      [Op.ins 0 0, Op.ins 1 1, Op.ins 2 2, Op.ins 3 3, Op.ins 4 4, Op.ins 5 5,
       Op.ins 6 6, Op.ins 7 7, Op.ins 8 8, Op.ins 9 9, Op.ins 10 10,
       Op.ins 11 11]) = true ∧
    errKind (runOpsB (fun n => n) (mkRat 12 11) (HashTable.init Nat Nat)
      [Op.ins 0 0, Op.ins 1 1, Op.ins 2 2, Op.ins 3 3, Op.ins 4 4, Op.ins 5 5,
       Op.ins 6 6, Op.ins 7 7, Op.ins 8 8, Op.ins 9 9, Op.ins 10 10,
       Op.ins 11 11]) = some .full := by
  constructor
  · decide
  · decide

/-- C7 amended: the two headers agree on `find`, `at` and `remove` on
every table state (the first three conjuncts, hypothesis-free), and on
`insert` whenever `ht.h`'s (count-after-insert, canonical per the design
document) growth check does not fire (the last conjunct) — the only
behavioral difference between the two `HashTable`s is the resize trigger
(`used_+1` versus `used_`, the latter firing strictly later), to which the
counterexample owes its divergence. -/
theorem c7_equivalence_amended (hf : K → Nat) (α : ℚ) (s : HashTable K V)
    (k : K) (p : K × V) :
    s.findB hf k = s.find hf k ∧
    s.atValB hf k = s.atVal hf k ∧
    s.removeB hf k = s.remove hf k ∧
    (s.needResize α = false → s.insertB hf α p = s.insert hf α p) := by
  have hfind : s.findB hf k = s.find hf k := by
    unfold HashTable.findB HashTable.find
    rw [internalFindB_eq]
    unfold HashTable.internalFind
    cases hp : s.probe hf k with
    | none => rfl
    | some loc =>
      cases hgd : s.table.getD loc none with
      | none => simp only [hgd]
      | some it => simp only [hgd]
  have hat : s.atValB hf k = s.atVal hf k := by
    unfold HashTable.atValB HashTable.atVal
    rw [internalFindB_eq]
  have hrem : s.removeB hf k = s.remove hf k := by
    unfold HashTable.removeB HashTable.remove
    rw [internalFindB_eq]
    cases hif : s.internalFind hf k with
    | none => rfl
    | some pr =>
      obtain ⟨loc, it⟩ := pr
      obtain ⟨_, _, hdel⟩ := internalFind_some hf hif
      simp only [hdel, Bool.false_eq_true, if_false]
  refine ⟨hfind, hat, hrem, ?_⟩
  intro hnr
  have hnrB : s.needResizeB α = false := by
    rw [needResizeB_eq_div]
    rw [needResize_eq_div] at hnr
    simp only [decide_eq_false_iff_not] at hnr ⊢
    intro hle
    refine hnr (le_trans hle ?_)
    by_cases hlen : s.table.length = 0
    · rw [hlen]
      simp
    · have hpos : (0 : ℚ) < (s.table.length : ℚ) := by
        have : 0 < s.table.length := Nat.pos_of_ne_zero hlen
        exact_mod_cast this
      exact (div_le_div_iff_of_pos_right hpos).mpr (by linarith)
  unfold HashTable.insertB HashTable.insert
  cases hfB : capCount - s.mIndex with
  | zero =>
    unfold insertFuelB insertFuel
    simp [hnr, hnrB]
  | succ f =>
    unfold insertFuelB insertFuel
    simp [hnr, hnrB]

/-- Witness for C7 amended, on a table holding a tombstone (slot 3) and a
live entry (slot 4), with the colliding key 14 as the prospective insert;
the insert conjunct's side condition (`ht.h`'s growth check not firing) is
discharged concretely. -/
theorem c7_equivalence_amended_witness :
    HashTable.needResize (mkRat 2 5) (getOk (runOps (fun n => n) (mkRat 2 5)
        (HashTable.init Nat Nat) [Op.ins 3 7, Op.ins 4 1, Op.rem 3])) = false ∧
    HashTable.findB (fun n => n) (getOk (runOps (fun n => n) (mkRat 2 5)
        (HashTable.init Nat Nat) [Op.ins 3 7, Op.ins 4 1, Op.rem 3])) 4 =
      HashTable.find (fun n => n) (getOk (runOps (fun n => n) (mkRat 2 5)
        (HashTable.init Nat Nat) [Op.ins 3 7, Op.ins 4 1, Op.rem 3])) 4 ∧
    HashTable.atValB (fun n => n) (getOk (runOps (fun n => n) (mkRat 2 5)
        (HashTable.init Nat Nat) [Op.ins 3 7, Op.ins 4 1, Op.rem 3])) 4 =
      HashTable.atVal (fun n => n) (getOk (runOps (fun n => n) (mkRat 2 5)
        (HashTable.init Nat Nat) [Op.ins 3 7, Op.ins 4 1, Op.rem 3])) 4 ∧
    HashTable.removeB (fun n => n) (getOk (runOps (fun n => n) (mkRat 2 5)
        (HashTable.init Nat Nat) [Op.ins 3 7, Op.ins 4 1, Op.rem 3])) 4 =
      HashTable.remove (fun n => n) (getOk (runOps (fun n => n) (mkRat 2 5)
        (HashTable.init Nat Nat) [Op.ins 3 7, Op.ins 4 1, Op.rem 3])) 4 ∧
    HashTable.insertB (fun n => n) (mkRat 2 5)
      (getOk (runOps (fun n => n) (mkRat 2 5)
        (HashTable.init Nat Nat) [Op.ins 3 7, Op.ins 4 1, Op.rem 3])) (14, 9) =
      HashTable.insert (fun n => n) (mkRat 2 5)
        (getOk (runOps (fun n => n) (mkRat 2 5)
          (HashTable.init Nat Nat) [Op.ins 3 7, Op.ins 4 1, Op.rem 3])) (14, 9) :=
  have h := c7_equivalence_amended (fun n => n) (mkRat 2 5)
    (getOk (runOps (fun n => n) (mkRat 2 5)
      (HashTable.init Nat Nat) [Op.ins 3 7, Op.ins 4 1, Op.rem 3]))
    4 (14, 9)
  ⟨by decide, h.1, h.2.1, h.2.2.1, h.2.2.2 (by decide)⟩

/-!
  ## C9: `reportAll`
-/

/-- First components of an index-driven `filterMap` form a sublist of the
index list. -/
theorem map_fst_filterMap_sublist {β : Type} (g : Nat → Option (Nat × β))
    (hg : ∀ i t, g i = some t → t.1 = i) :
    ∀ l : List Nat, (((l.filterMap g).map Prod.fst)).Sublist l := by
  intro l
  induction l with
  | nil => simp
  | cons i rest ih =>
    cases hgi : g i with
    | none =>
      simp only [List.filterMap_cons, hgi]
      exact ih.cons i
    | some t =>
      simp only [List.filterMap_cons, hgi, List.map_cons]
      rw [hg i t hgi]
      exact ih.cons₂ i

/-- C9 counterexample: after `insert(5, 7)` then `remove(5)`, slot 5 holds
a tombstone; `ht.h`'s `reportAll` nevertheless emits the triple
`(5, 5, 7)` (its loop checks only `table_[i]` non-null, never the deleted
flag), although no live entry exists — so `reportAll` does *not* enumerate
exactly the live triples.  The unnamed header's `reportAll` (which does
skip tombstones) correctly reports nothing. -/
theorem c9_report_counterexample :
    HashTable.reportAll (getOk (runOps (fun n => n) (mkRat 2 5)
      (HashTable.init Nat Nat) [Op.ins 5 7, Op.rem 5])) = [(5, 5, 7)] ∧
    (getOk (runOps (fun n => n) (mkRat 2 5)
      (HashTable.init Nat Nat) [Op.ins 5 7, Op.rem 5])).table.getD 5 none =
      some ⟨5, 7, true⟩ ∧
    HashTable.reportAllB (getOk (runOps (fun n => n) (mkRat 2 5)
      (HashTable.init Nat Nat) [Op.ins 5 7, Op.rem 5])) = [] := by
  refine ⟨?_, ?_, ?_⟩ <;> decide

/-- C9 amended: `ht.h`'s `reportAll` enumerates exactly the *occupied*
slots — tombstoned ones included — as `(slot-index, key, value)` triples,
while the unnamed header's `reportAll` enumerates exactly the live
(non-tombstoned) ones; both in increasing physical slot order. -/
theorem c9_report_amended (s : HashTable K V) (i : Nat) (k : K) (v : V) :
    ((i, k, v) ∈ s.reportAll ↔ ∃ b, s.table.getD i none = some ⟨k, v, b⟩) ∧
    ((i, k, v) ∈ s.reportAllB ↔ s.table.getD i none = some ⟨k, v, false⟩) ∧
    (s.reportAll.map Prod.fst).Pairwise (· < ·) ∧
    (s.reportAllB.map Prod.fst).Pairwise (· < ·) := by
  refine ⟨?_, ?_, ?_, ?_⟩
  · unfold HashTable.reportAll
    rw [List.mem_filterMap]
    constructor
    · rintro ⟨j, _, hfj⟩
      cases hgd : s.table.getD j none with
      | none => rw [hgd] at hfj; exact absurd hfj (by simp)
      | some it =>
        rw [hgd] at hfj
        simp only [Option.some_inj, Prod.mk.injEq] at hfj
        obtain ⟨hji, hkk, hvv⟩ := hfj
        subst hji
        refine ⟨it.deleted, ?_⟩
        rw [hgd]
        cases it with
        | mk a b c =>
          simp only at hkk hvv ⊢
          rw [hkk, hvv]
    · rintro ⟨b, hgd⟩
      refine ⟨i, List.mem_range.mpr (lt_length_of_getD_some _ _ _ hgd), ?_⟩
      rw [hgd]
  · unfold HashTable.reportAllB
    rw [List.mem_filterMap]
    constructor
    · rintro ⟨j, _, hfj⟩
      cases hgd : s.table.getD j none with
      | none => rw [hgd] at hfj; exact absurd hfj (by simp)
      | some it =>
        simp only [hgd] at hfj
        by_cases hdel : it.deleted
        · rw [if_pos hdel] at hfj
          exact absurd hfj (by simp)
        · rw [if_neg hdel] at hfj
          simp only [Option.some_inj, Prod.mk.injEq] at hfj
          obtain ⟨hji, hkk, hvv⟩ := hfj
          subst hji
          rw [hgd]
          cases it with
          | mk a b c =>
            simp only at hkk hvv hdel ⊢
            rw [hkk, hvv]
            simpa using hdel
    · rintro hgd
      refine ⟨i, List.mem_range.mpr (lt_length_of_getD_some _ _ _ hgd), ?_⟩
      rw [hgd]
      simp
  · refine List.Pairwise.sublist ?_
      (List.pairwise_lt_range s.table.length)
    unfold HashTable.reportAll
    refine map_fst_filterMap_sublist _ ?_ _
    intro j t hj
    cases hgd : s.table.getD j none with
    | none => rw [hgd] at hj; exact absurd hj (by simp)
    | some it =>
      rw [hgd] at hj
      simp only [Option.some_inj] at hj
      rw [← hj]
  · refine List.Pairwise.sublist ?_
      (List.pairwise_lt_range s.table.length)
    unfold HashTable.reportAllB
    refine map_fst_filterMap_sublist _ ?_ _
    intro j t hj
    cases hgd : s.table.getD j none with
    | none => rw [hgd] at hj; exact absurd hj (by simp)
    | some it =>
      simp only [hgd] at hj
      by_cases hdel : it.deleted
      · rw [if_pos hdel] at hj
        exact absurd hj (by simp)
      · rw [if_neg hdel] at hj
        simp only [Option.some_inj] at hj
        rw [← hj]
